import Mathlib

/-!
# Verification of the GCC Huffman compressor family (`gcc_huffman.py`)

A shallow embedding of the Python source `src/gcc_huffman.py`: a byte is a
`Nat` (< 256), a byte string is a `List Nat`, and every fallible Python
function (one that can raise) returns `Except String α`, the error string
naming the exception or Python error message it models.

The embedding is written to mirror the source function by function:
frequency counting, heap-based Huffman tree construction, code-table
derivation by depth-first traversal, MSB-first bit packing, the tree-walk
decoder, the three-way V/C/O splitter of format 2, the syllable and word
tokenizers of formats 3/4, and the four container codecs.
-/

set_option maxRecDepth 8000

namespace GCC

/-- `MAGIC = b"GCC"`. -/
def MAGIC : List Nat := [71, 67, 67]

def VERSION_STEP1 : Nat := 1

def VERSION_STEP2 : Nat := 2

def VERSION_STEP3 : Nat := 3

def VERSION_STEP4 : Nat := 4

/-- `HuffmanNode`: in the source a node has an optional symbol and optional
children; the code only ever builds leaves (symbol, no children) and internal
nodes (no symbol, both children), which is exactly this inductive. The weight
`freq` is carried on both constructors. -/
inductive HTree : Type where
  | leaf (freq : Nat) (symbol : Nat) : HTree
  | node (freq : Nat) (left : HTree) (right : HTree) : HTree
deriving Repr, DecidableEq

/-- The weight of a node (the `freq` dataclass field). -/
def HTree.freqOf : HTree → Nat
  | .leaf f _ => f
  | .node f _ _ => f

/-- `node.symbol` read on a tree the code knows is a leaf (`only.symbol` in
`build_huffman_tree`); on an internal node Python would find `None` and the
subsequent `+ 1` would raise, a case the source never reaches because the
singleton heap entry is always a leaf. -/
def HTree.leafSymbol : HTree → Nat
  | .leaf _ s => s
  | .node _ _ _ => 0

/-- The multiset (as a list) of leaf symbols of a tree. -/
def HTree.leafSyms : HTree → List Nat
  | .leaf _ s => [s]
  | .node _ l r => l.leafSyms ++ r.leafSyms

/-- `build_freq_table`: 256 counters, `freq[b] += 1` per byte.  (For `b ≥ 256`
Python would raise `IndexError`; real byte input always has `b < 256`.) -/
def build_freq_table (data : List Nat) : List Nat :=
  data.foldl (fun freq b => freq.set b (freq.getD b 0 + 1)) (List.replicate 256 0)

/-- A `heapq` entry `(freq, counter, node)`. -/
abbrev HeapEntry := Nat × Nat × HTree

/-- Lexicographic `≤` on the `(freq, counter)` key, as `heapq` compares the
tuples (the `node` component is never compared because counters are distinct). -/
def keyLe (a b : Nat × Nat) : Bool :=
  decide (a.1 < b.1) || (decide (a.1 = b.1) && decide (a.2 ≤ b.2))

/-- The heap modelled as a list kept sorted by `(freq, counter)`:
`heapq.heappush` inserts, and popping the minimum is taking the head.  Every
heap the source builds has pairwise distinct counters, so the pop order of
`heapq` is exactly the sorted order this model maintains. -/
def heapPush (e : HeapEntry) : List HeapEntry → List HeapEntry
  | [] => [e]
  | x :: xs => if keyLe (e.1, e.2.1) (x.1, x.2.1) then e :: x :: xs else x :: heapPush e xs

theorem heapPush_length (e : HeapEntry) (h : List HeapEntry) :
    (heapPush e h).length = h.length + 1 := by
  induction h with
  | nil => rfl
  | cons x xs ih =>
      simp only [heapPush]
      split <;> simp [ih]

/-- The initial heap entries of `build_huffman_tree`: one leaf per symbol with
non-zero frequency, pushed in symbol order; the `itertools.count` counter gives
the i-th pushed leaf the sequence number i. -/
def initEntries (freq : List Nat) : List HeapEntry :=
  ((freq.enum.filter (fun p => decide (0 < p.2))).enum).map
    (fun ce => (ce.2.2, ce.1, HTree.leaf ce.2.2 ce.2.1))

/-- The `while len(heap) > 1` merge loop of `build_huffman_tree`, with
structural fuel (the fuel is always at least the heap length, so the
`fuel = 0` branch is never taken).  Each step pops the two minimal entries,
makes their parent with weight `f1 + f2`, and pushes it with the next
counter. -/
def buildLoop : Nat → List HeapEntry → Nat → Option HTree
  | _, [], _ => none
  | _, [e], _ => some e.2.2
  | 0, _ :: _ :: _, _ => none
  | fuel + 1, e1 :: e2 :: rest, c =>
      buildLoop fuel (heapPush (e1.1 + e2.1, c, HTree.node (e1.1 + e2.1) e1.2.2 e2.2.2) rest) (c + 1)

/-- `build_huffman_tree`: push one leaf per non-zero symbol; `None` for an
all-zero table; if exactly one leaf exists add the zero-weight dummy leaf with
symbol `(real_symbol + 1) % 256` (`e0.2.2` is the lone entry's node, the
source's `heap[0]`); then merge until one node remains. -/
def build_huffman_tree (freq : List Nat) : Option HTree :=
  match (initEntries freq).foldl (fun h e => heapPush e h) [] with
  | [] => none
  | e0 :: hrest =>
      if hrest.isEmpty then
        buildLoop 2
          (heapPush (0, (initEntries freq).length,
            HTree.leaf 0 ((e0.2.2.leafSymbol + 1) % 256)) (e0 :: hrest))
          ((initEntries freq).length + 1)
      else
        buildLoop (e0 :: hrest).length (e0 :: hrest) (initEntries freq).length

/-- The `dfs` of `build_code_table`: descend appending 0 (left) / 1 (right);
at a leaf record the accumulated path, or `[0]` when the path is empty (a leaf
at the root).  The Python `dict` keyed by symbol is modelled as the
association list in depth-first order (leaf symbols are pairwise distinct in
every tree the builder produces, so first-match lookup agrees with the dict). -/
def buildCodeDfs : HTree → List Nat → List (Nat × List Nat)
  | .leaf _ s, path => [(s, if path.isEmpty then [0] else path)]
  | .node _ l r, path => buildCodeDfs l (path ++ [0]) ++ buildCodeDfs r (path ++ [1])

/-- `build_code_table`. -/
def build_code_table (root : HTree) : List (Nat × List Nat) :=
  buildCodeDfs root []

/-- `codes[b]`: dict lookup, `KeyError` when absent. -/
def codesFor (codes : List (Nat × List Nat)) (b : Nat) : Except String (List Nat) :=
  match codes.find? (fun e => e.1 == b) with
  | some e => .ok e.2
  | none => .error "KeyError"

/-- The bit sequence `encode_data` feeds into its byte accumulator: the
concatenation of the codes of the symbols, in order. -/
def encode_bits (data : List Nat) (codes : List (Nat × List Nat)) :
    Except String (List Nat) :=
  match data with
  | [] => .ok []
  | b :: rest => do
      let c ← codesFor codes b
      let r ← encode_bits rest codes
      .ok (c ++ r)

/-- The byte accumulator of `encode_data`: `current_byte = (current_byte << 1) | bit`,
emit every 8 bits; at the end a partial byte is left-shifted to fill (zero
padding on the right) and `lastbits` is its number of valid bits, or 8 when
the last byte was full (also when no bit was ever produced). -/
def packGo : List Nat → Nat → Nat → List Nat → List Nat × Nat
  | [], cur, cnt, out =>
      if 0 < cnt then (out ++ [cur * 2 ^ (8 - cnt)], cnt) else (out, 8)
  | bit :: rest, cur, cnt, out =>
      if cnt + 1 = 8 then packGo rest 0 0 (out ++ [cur * 2 + bit])
      else packGo rest (cur * 2 + bit) (cnt + 1) out

/-- Packing a bit list into bytes, starting from the empty accumulator. -/
def packBits (bits : List Nat) : List Nat × Nat :=
  packGo bits 0 0 []

/-- `encode_data`: `(b"", 0)` for empty data, otherwise pack the concatenated
code bits (the source interleaves the dict lookups with the byte accumulator;
the emitted byte stream is the same). -/
def encode_data (data : List Nat) (codes : List (Nat × List Nat)) :
    Except String (List Nat × Nat) :=
  if data.isEmpty then .ok ([], 0)
  else (encode_bits data codes).map packBits

/-- The 8 bits of a byte, most significant first: bit i is `(byte >> (7-i)) & 1`. -/
def byteBits (b : Nat) : List Nat :=
  [b / 2 ^ 7 % 2, b / 2 ^ 6 % 2, b / 2 ^ 5 % 2, b / 2 ^ 4 % 2,
   b / 2 ^ 3 % 2, b / 2 ^ 2 % 2, b / 2 ^ 1 % 2, b % 2]

/-- The bit sequence `decode_bitstream` examines: all 8 bits of every byte,
except that of the final byte only `lastbits` bits are read when
`lastbits ≠ 0` (a valid stream has `lastbits ≤ 8`; for `lastbits > 8` the
Python loop would raise on a negative shift, a case no produced container
reaches). -/
def unpackBits : List Nat → Nat → List Nat
  | [], _ => []
  | [b], lastbits => if lastbits = 0 then byteBits b else (byteBits b).take lastbits
  | b :: rest, lastbits => byteBits b ++ unpackBits rest lastbits

/-- The walk of `decode_bitstream` over the examined bits: from the current
node take the left child on 0, right on 1; descending from a leaf is the
Python `None.symbol` crash (`AttributeError`); reaching a leaf emits its
symbol and resets to the root; decoding returns as soon as `N` symbols are
out, and returns the (possibly short) output when the bits run out. -/
def decodeBitsGo (root : HTree) (N : Nat) :
    List Nat → HTree → List Nat → Nat → Except String (List Nat)
  | [], _, out, _ => .ok out
  | bit :: rest, nd, out, count =>
      match nd with
      | .leaf _ _ => .error "AttributeError"
      | .node _ l r =>
          match (if bit = 0 then l else r) with
          | .leaf _ s =>
              if count + 1 = N then .ok (out ++ [s])
              else decodeBitsGo root N rest root (out ++ [s]) (count + 1)
          | .node f2 l2 r2 => decodeBitsGo root N rest (.node f2 l2 r2) out count

/-- `decode_bitstream`: empty result for `N = 0` or a missing tree, otherwise
walk the examined bits. -/
def decode_bitstream (root : Option HTree) (bitstream : List Nat) (N lastbits : Nat) :
    Except String (List Nat) :=
  if N = 0 then .ok []
  else
    match root with
    | none => .ok []
    | some r => decodeBitsGo r N (unpackBits bitstream lastbits) r [] 0

/-- `huffman_compress_core`: `data -> (freq, lastbits, bitstream)`. -/
def huffman_compress_core (data : List Nat) :
    Except String (List Nat × Nat × List Nat) :=
  match build_huffman_tree (build_freq_table data) with
  | none => .ok (build_freq_table data, 0, [])
  | some root => do
      let bl ← encode_data data (build_code_table root)
      .ok (build_freq_table data, bl.2, bl.1)

/-- `huffman_decompress_core`: rebuild the tree from the stored table and
decode; empty result when there is no tree or `N = 0`. -/
def huffman_decompress_core (freq : List Nat) (bitstream : List Nat) (N lastbits : Nat) :
    Except String (List Nat) :=
  match build_huffman_tree freq with
  | none => .ok []
  | some root =>
      if N = 0 then .ok []
      else decode_bitstream (some root) bitstream N lastbits

/-- Big-endian bytes of `n` over `k` places (the digits of
`n.to_bytes(k, "big")`). -/
def toBytesAux : Nat → Nat → List Nat
  | 0, _ => []
  | k + 1, n => toBytesAux k (n / 256) ++ [n % 256]

/-- `n.to_bytes(k, "big")`: Python raises `OverflowError` when `n` does not
fit in `k` bytes. -/
def to_bytes (k n : Nat) : Except String (List Nat) :=
  if n < 256 ^ k then .ok (toBytesAux k n) else .error "OverflowError"

/-- `int.from_bytes(bs, "big")`. -/
def from_bytes (bs : List Nat) : Nat :=
  bs.foldl (fun a b => a * 256 + b) 0

/-- The `for f in freq: header += f.to_bytes(4, "big")` serialization loop. -/
def serialize_u32s : List Nat → Except String (List Nat)
  | [] => .ok []
  | f :: rest => do
      let b ← to_bytes 4 f
      let r ← serialize_u32s rest
      .ok (b ++ r)

/-- The 256-iteration `int.from_bytes(comp[idx:idx+4], "big")` parse loop
(Python slices clamp at the end of the buffer, as `take` does). -/
def read_u32s : Nat → List Nat → List Nat
  | 0, _ => []
  | k + 1, bs => from_bytes (bs.take 4) :: read_u32s k (bs.drop 4)

/-- `comp[idx]`: a single-byte read, `IndexError` out of range. -/
def readByte (comp : List Nat) (idx : Nat) : Except String Nat :=
  match comp.drop idx with
  | [] => .error "IndexError"
  | b :: _ => .ok b

/-- `compress_bytes_v1`:
`[ MAGIC(3) | VERSION(1) | N(8) | FREQ[256]*4 | LASTBITS(1) | DATA ]`. -/
def compress_bytes_v1 (data : List Nat) : Except String (List Nat) := do
  let N := data.length
  let flb ← huffman_compress_core data
  let nB ← to_bytes 8 N
  let fB ← serialize_u32s flb.1
  .ok (MAGIC ++ [VERSION_STEP1] ++ nB ++ fB ++ [flb.2.1] ++ flb.2.2)

/-- `decompress_bytes_v1`: header offsets 0..2 magic, 3 version, 4..11 N,
12..1035 the 256 frequency words, 1036 lastbits, 1037.. the bitstream. -/
def decompress_bytes_v1 (comp : List Nat) : Except String (List Nat) :=
  if comp.length < 3 + 1 + 8 + 256 * 4 + 1 then .error "Dati troppo corti per GCC v1"
  else if comp.take 3 ≠ MAGIC then .error "Magic number non valido"
  else do
    let version ← readByte comp 3
    if version ≠ VERSION_STEP1 then .error "Versione v1 richiesta" else
    let N := from_bytes ((comp.drop 4).take 8)
    let freq := read_u32s 256 (comp.drop 12)
    let lastbits ← readByte comp 1036
    let bitstream := comp.drop 1037
    huffman_decompress_core freq bitstream N lastbits

/-- `VOWELS = set("aeiouAEIOU")` as byte values. -/
def VOWEL_BYTES : List Nat := [97, 101, 105, 111, 117, 65, 69, 73, 79, 85]

/-- `ch in VOWELS` for `ch = chr(b)`. -/
def is_vowel_byte (b : Nat) : Bool := VOWEL_BYTES.contains b

/-- `chr(b).isalpha()` for a byte value `b < 256`: the ASCII letters plus the
Latin-1 letters 0xAA, 0xB5, 0xBA, 0xC0-0xD6, 0xD8-0xF6, 0xF8-0xFF (checked
against CPython; byte values never exceed 255 in the source). -/
def chr_isalpha (b : Nat) : Bool :=
  decide ((65 ≤ b ∧ b ≤ 90) ∨ (97 ≤ b ∧ b ≤ 122) ∨ b = 170 ∨ b = 181 ∨ b = 186 ∨
    (192 ≤ b ∧ b ≤ 214) ∨ (216 ≤ b ∧ b ≤ 246) ∨ (248 ≤ b ∧ b ≤ 255))

/-- `split_streams_v2`: per byte, a vowel goes to the vowel stream under mask
`'V'` (86); any other alphabetic byte to the cons stream under `'C'` (67);
anything else to the cons stream under `'O'` (79). -/
def split_streams_v2 : List Nat → List Nat × List Nat × List Nat
  | [] => ([], [], [])
  | b :: rest =>
      let mvc := split_streams_v2 rest
      if is_vowel_byte b then (86 :: mvc.1, b :: mvc.2.1, mvc.2.2)
      else if chr_isalpha b then (67 :: mvc.1, mvc.2.1, b :: mvc.2.2)
      else (79 :: mvc.1, mvc.2.1, b :: mvc.2.2)

/-- `merge_streams_v2`: walk the mask; `'V'` takes the next vowel byte, any
other mask byte takes the next cons byte; exhausting a stream while the mask
still asks for it is the Python `IndexError`. -/
def merge_streams_v2 : List Nat → List Nat → List Nat → Except String (List Nat)
  | [], _, _ => .ok []
  | m :: ms, vs, cs =>
      if m = 86 then
        match vs with
        | [] => .error "IndexError"
        | v :: vtl => do
            let r ← merge_streams_v2 ms vtl cs
            .ok (v :: r)
      else
        match cs with
        | [] => .error "IndexError"
        | c :: ctl => do
            let r ← merge_streams_v2 ms vs ctl
            .ok (c :: r)

/-- `compress_bytes_v2`:
`[ MAGIC(3) | VERSION(1)=2 | N(8) | LEN_V(8) | LEN_C(8)
 | FREQ_MASK[256]*4 | LASTBITS_MASK(1) | BSIZE_MASK(8)
 | FREQ_V[256]*4 | LASTBITS_V(1) | BSIZE_V(8)
 | FREQ_C[256]*4 | LASTBITS_C(1) | BSIZE_C(8)
 | DATA_MASK | DATA_V | DATA_C ]`. -/
def compress_bytes_v2 (data : List Nat) : Except String (List Nat) := do
  let N := data.length
  let mvc := split_streams_v2 data
  let m ← huffman_compress_core mvc.1
  let v ← huffman_compress_core mvc.2.1
  let c ← huffman_compress_core mvc.2.2
  let nB ← to_bytes 8 N
  let lvB ← to_bytes 8 mvc.2.1.length
  let lcB ← to_bytes 8 mvc.2.2.length
  let fmB ← serialize_u32s m.1
  let bmB ← to_bytes 8 m.2.2.length
  let fvB ← serialize_u32s v.1
  let bvB ← to_bytes 8 v.2.2.length
  let fcB ← serialize_u32s c.1
  let bcB ← to_bytes 8 c.2.2.length
  .ok (MAGIC ++ [VERSION_STEP2] ++ nB ++ lvB ++ lcB ++
       fmB ++ [m.2.1] ++ bmB ++ fvB ++ [v.2.1] ++ bvB ++ fcB ++ [c.2.1] ++ bcB ++
       m.2.2 ++ v.2.2 ++ c.2.2)

/-- `decompress_bytes_v2`: base header 0..27 (magic, version, N, LEN_V,
LEN_C); the mask block at 28 (freq), 1052 (lastbits), 1053..1060 (bsize); the
vowel block at 1061, 2085, 2086..2093; the cons block at 2094, 3118,
3119..3126; the three bitstreams concatenated from 3127, split by the stored
sizes. -/
def decompress_bytes_v2 (comp : List Nat) : Except String (List Nat) :=
  if comp.length < 3 + 1 + 8 + 8 + 8 then .error "Dati troppo corti per GCC v2"
  else if comp.take 3 ≠ MAGIC then .error "Magic non valido"
  else do
    let version ← readByte comp 3
    if version ≠ VERSION_STEP2 then .error "Versione v2 richiesta" else
    let N := from_bytes ((comp.drop 4).take 8)
    let len_v := from_bytes ((comp.drop 12).take 8)
    let len_c := from_bytes ((comp.drop 20).take 8)
    let freq_m := read_u32s 256 (comp.drop 28)
    let last_m ← readByte comp 1052
    let bsize_m := from_bytes ((comp.drop 1053).take 8)
    let freq_v := read_u32s 256 (comp.drop 1061)
    let last_v ← readByte comp 2085
    let bsize_v := from_bytes ((comp.drop 2086).take 8)
    let freq_c := read_u32s 256 (comp.drop 2094)
    let last_c ← readByte comp 3118
    let bsize_c := from_bytes ((comp.drop 3119).take 8)
    let bs_m := (comp.drop 3127).take bsize_m
    let bs_v := (comp.drop (3127 + bsize_m)).take bsize_v
    let bs_c := (comp.drop (3127 + bsize_m + bsize_v)).take bsize_c
    let mask ← huffman_decompress_core freq_m bs_m N last_m
    let vowels ← huffman_decompress_core freq_v bs_v len_v last_v
    let cons ← huffman_decompress_core freq_c bs_c len_c last_c
    merge_streams_v2 mask vowels cons

/-- `_is_ascii_letter`: `A-Z` or `a-z`. -/
def is_ascii_letter (b : Nat) : Bool :=
  decide ((65 ≤ b ∧ b ≤ 90) ∨ (97 ≤ b ∧ b ≤ 122))

/-- The accumulator loop of `split_word_into_syllables`: append each byte to
the current syllable and close it after every vowel; a leftover accumulator
becomes a final syllable. -/
def syllGo : List Nat → List Nat → List (List Nat)
  | [], current => if current.isEmpty then [] else [current]
  | b :: rest, current =>
      if is_vowel_byte b then (current ++ [b]) :: syllGo rest []
      else syllGo rest (current ++ [b])

/-- `split_word_into_syllables`. -/
def split_word_into_syllables (word : List Nat) : List (List Nat) :=
  syllGo word []

/-- `tokenize_syllables_and_other` with structural fuel (the fuel never runs
out when it starts at the input length): a maximal letter run is split into
pseudo-syllables, a maximal non-letter run is one token. -/
def tokenizeSyllFuel : Nat → List Nat → List (List Nat)
  | _, [] => []
  | 0, _ :: _ => []
  | fuel + 1, b :: rest =>
      if is_ascii_letter b then
        split_word_into_syllables (b :: rest.takeWhile is_ascii_letter) ++
          tokenizeSyllFuel fuel (rest.dropWhile is_ascii_letter)
      else
        (b :: rest.takeWhile (fun x => !is_ascii_letter x)) ::
          tokenizeSyllFuel fuel (rest.dropWhile (fun x => !is_ascii_letter x))

/-- `tokenize_syllables_and_other`. -/
def tokenize_syllables_and_other (data : List Nat) : List (List Nat) :=
  tokenizeSyllFuel data.length data

/-- `tokenize_words_and_other` with structural fuel: a maximal letter run is
one token, a maximal non-letter run is one token. -/
def tokenizeWordsFuel : Nat → List Nat → List (List Nat)
  | _, [] => []
  | 0, _ :: _ => []
  | fuel + 1, b :: rest =>
      if is_ascii_letter b then
        (b :: rest.takeWhile is_ascii_letter) ::
          tokenizeWordsFuel fuel (rest.dropWhile is_ascii_letter)
      else
        (b :: rest.takeWhile (fun x => !is_ascii_letter x)) ::
          tokenizeWordsFuel fuel (rest.dropWhile (fun x => !is_ascii_letter x))

/-- `tokenize_words_and_other`. -/
def tokenize_words_and_other (data : List Nat) : List (List Nat) :=
  tokenizeWordsFuel data.length data

/-- The vocabulary-building pass of `compress_bytes_v3`/`v4`: first-occurrence
order, duplicates skipped. -/
def buildVocab (tokens : List (List Nat)) : List (List Nat) :=
  tokens.foldl (fun vl tok => if vl.contains tok then vl else vl ++ [tok]) []

/-- The id of a token: its position in the vocabulary list (the value the
`vocab` dict assigned at first occurrence; every encoded token is in the
list, so the lookup never misses). -/
def idOf (vl : List (List Nat)) (tok : List Nat) : Nat :=
  vl.indexOf tok

/-- The `LEN(2) | TOKEN_BYTES` vocabulary serialization loop;
`ValueError` for a token longer than the 2-byte length field allows. -/
def serialize_vocab : List (List Nat) → Except String (List Nat)
  | [] => .ok []
  | tok :: rest =>
      if 0xFFFF < tok.length then .error "Token troppo lungo per LEN(2 byte)"
      else do
        let lB ← to_bytes 2 tok.length
        let r ← serialize_vocab rest
        .ok (lB ++ tok ++ r)

/-- The vocabulary parse loop of `decompress_bytes_v3`/`v4`: read `count`
`LEN(2) | TOKEN_BYTES` entries, with the source's two truncation checks;
returns the entries and the remaining bytes. -/
def parse_vocab : Nat → List Nat → Except String (List (List Nat) × List Nat)
  | 0, bs => .ok ([], bs)
  | k + 1, bs =>
      if bs.length < 2 then .error "File troncato (LEN token)"
      else
        let L := from_bytes (bs.take 2)
        let bs2 := bs.drop 2
        if bs2.length < L then .error "File troncato (TOKEN bytes)"
        else do
          let vr ← parse_vocab k (bs2.drop L)
          .ok ((bs2.take L) :: vr.1, vr.2)

/-- The reconstruction loop `for b in id_bytes: out += vocab_list[b]`: the
unguarded indexed lookup raises `IndexError` when an id is out of range. -/
def reconstruct (vl : List (List Nat)) : List Nat → Except String (List Nat)
  | [] => .ok []
  | b :: rest =>
      match vl.get? b with
      | none => .error "IndexError"
      | some tok => do
          let r ← reconstruct vl rest
          .ok (tok ++ r)

/-- `compress_bytes_v3`:
`[ MAGIC(3) | VERSION(1)=3 | N_TOKENS(8) | VOCAB_SIZE(2) | VOCAB | FREQ[256]*4
 | LASTBITS(1) | BITSTREAM_IDs ]`; `ValueError` when more than 256 distinct
tokens occur. -/
def compress_bytes_v3 (data : List Nat) : Except String (List Nat) := do
  let tokens := tokenize_syllables_and_other data
  let vocab_list := buildVocab tokens
  if 256 < vocab_list.length then .error "VOCAB troppo grande per v3" else
  let id_stream := tokens.map (idOf vocab_list)
  let flb ← huffman_compress_core id_stream
  let nB ← to_bytes 8 tokens.length
  let vsB ← to_bytes 2 vocab_list.length
  let vB ← serialize_vocab vocab_list
  let fB ← serialize_u32s flb.1
  .ok (MAGIC ++ [VERSION_STEP3] ++ nB ++ vsB ++ vB ++ fB ++ [flb.2.1] ++ flb.2.2)

/-- `decompress_bytes_v3`: parse the header and the vocabulary, check the
remaining length covers `FREQ[256]*4 + LASTBITS`, decode the id stream and
concatenate the vocabulary entries it names. -/
def decompress_bytes_v3 (comp : List Nat) : Except String (List Nat) :=
  if comp.length < 3 + 1 + 8 + 2 then .error "Dati troppo corti per GCC v3"
  else if comp.take 3 ≠ MAGIC then .error "Magic non valido"
  else do
    let version ← readByte comp 3
    if version ≠ VERSION_STEP3 then .error "Versione v3 richiesta" else
    let N_tokens := from_bytes ((comp.drop 4).take 8)
    let vocab_size := from_bytes ((comp.drop 12).take 2)
    let vr ← parse_vocab vocab_size (comp.drop 14)
    let rest := vr.2
    if rest.length < 256 * 4 + 1 then .error "File troncato (freq + lastbits)" else
    let freq := read_u32s 256 rest
    let lastbits ← readByte rest 1024
    let bitstream := rest.drop 1025
    let id_bytes ← huffman_decompress_core freq bitstream N_tokens lastbits
    reconstruct vr.1 id_bytes

/-- `compress_bytes_v4`: as v3 with the whole-word tokenizer. -/
def compress_bytes_v4 (data : List Nat) : Except String (List Nat) := do
  let tokens := tokenize_words_and_other data
  let vocab_list := buildVocab tokens
  if 256 < vocab_list.length then .error "VOCAB troppo grande per v4" else
  let id_stream := tokens.map (idOf vocab_list)
  let flb ← huffman_compress_core id_stream
  let nB ← to_bytes 8 tokens.length
  let vsB ← to_bytes 2 vocab_list.length
  let vB ← serialize_vocab vocab_list
  let fB ← serialize_u32s flb.1
  .ok (MAGIC ++ [VERSION_STEP4] ++ nB ++ vsB ++ vB ++ fB ++ [flb.2.1] ++ flb.2.2)

/-- `decompress_bytes_v4`: as v3 with version byte 4. -/
def decompress_bytes_v4 (comp : List Nat) : Except String (List Nat) :=
  if comp.length < 3 + 1 + 8 + 2 then .error "Dati troppo corti per GCC v4"
  else if comp.take 3 ≠ MAGIC then .error "Magic non valido"
  else do
    let version ← readByte comp 3
    if version ≠ VERSION_STEP4 then .error "Versione v4 richiesta" else
    let N_tokens := from_bytes ((comp.drop 4).take 8)
    let vocab_size := from_bytes ((comp.drop 12).take 2)
    let vr ← parse_vocab vocab_size (comp.drop 14)
    let rest := vr.2
    if rest.length < 256 * 4 + 1 then .error "File troncato (freq + lastbits)" else
    let freq := read_u32s 256 rest
    let lastbits ← readByte rest 1024
    let bitstream := rest.drop 1025
    let id_bytes ← huffman_decompress_core freq bitstream N_tokens lastbits
    reconstruct vr.1 id_bytes

/-! ## Bit packing and unpacking -/

/-- The value of a bit list read MSB-first (the byte accumulator's contents). -/
def bitsToNat (bits : List Nat) : Nat :=
  bits.foldl (fun a b => a * 2 + b) 0

theorem bitsToNat_foldl (q : List Nat) :
    ∀ a : Nat, q.foldl (fun a b => a * 2 + b) a = a * 2 ^ q.length + bitsToNat q := by
  induction q with
  | nil => intro a; simp [bitsToNat]
  | cons x q ih =>
      intro a
      simp only [List.foldl_cons, List.length_cons, bitsToNat] at *
      rw [ih (a * 2 + x), ih (0 * 2 + x)]
      ring

theorem bitsToNat_append (p q : List Nat) :
    bitsToNat (p ++ q) = bitsToNat p * 2 ^ q.length + bitsToNat q := by
  simp only [bitsToNat, List.foldl_append]
  exact bitsToNat_foldl q _

theorem bitsToNat_concat (p : List Nat) (b : Nat) :
    bitsToNat (p ++ [b]) = bitsToNat p * 2 + b := by
  rw [bitsToNat_append]; simp [bitsToNat]

theorem bitsToNat_replicate_zero (k : Nat) : bitsToNat (List.replicate k 0) = 0 := by
  induction k with
  | zero => rfl
  | succ n ih =>
      simp only [bitsToNat, List.replicate_succ, List.foldl_cons] at *
      simpa using ih

theorem byteBits_bitsToNat (l : List Nat) (h8 : l.length = 8) (hb : ∀ b ∈ l, b < 2) :
    byteBits (bitsToNat l) = l := by
  match l, h8 with
  | [a, b, c, d, e, f, g, h], _ =>
      have ha := hb a (by simp)
      have hbb := hb b (by simp)
      have hc := hb c (by simp)
      have hd := hb d (by simp)
      have he := hb e (by simp)
      have hf := hb f (by simp)
      have hg := hb g (by simp)
      have hh := hb h (by simp)
      simp only [bitsToNat, List.foldl_cons, List.foldl_nil, byteBits, List.cons.injEq, and_true]
      norm_num
      omega

theorem packGo_acc (bits : List Nat) :
    ∀ cur cnt out, packGo bits cur cnt out =
      (out ++ (packGo bits cur cnt []).1, (packGo bits cur cnt []).2) := by
  induction bits with
  | nil =>
      intro cur cnt out
      simp only [packGo]
      split <;> simp
  | cons bit rest ih =>
      intro cur cnt out
      simp only [packGo]
      split
      · rw [ih _ _ (out ++ [cur * 2 + bit]), ih _ _ ([] ++ [cur * 2 + bit])]
        simp
      · rw [ih _ _ out]

theorem packGo_fst_ne_nil (bits : List Nat) :
    ∀ cur cnt, (0 < cnt ∨ bits ≠ []) → (packGo bits cur cnt []).1 ≠ [] := by
  induction bits with
  | nil =>
      intro cur cnt h
      have hc : 0 < cnt := h.resolve_right (fun hme => hme rfl)
      simp [packGo, hc]
  | cons bit rest ih =>
      intro cur cnt _
      simp only [packGo]
      split
      · rw [packGo_acc]
        simp
      · exact ih _ _ (Or.inl (Nat.succ_pos cnt))

theorem unpackBits_cons (b : Nat) (rest : List Nat) (lb : Nat) (h : rest ≠ []) :
    unpackBits (b :: rest) lb = byteBits b ++ unpackBits rest lb := by
  cases rest with
  | nil => exact absurd rfl h
  | cons x xs => rfl

theorem unpack_packGo (bits : List Nat) :
    ∀ p : List Nat, (∀ x ∈ bits, x < 2) → (∀ x ∈ p, x < 2) → p.length < 8 →
      unpackBits (packGo bits (bitsToNat p) p.length []).1
        (packGo bits (bitsToNat p) p.length []).2 = p ++ bits := by
  induction bits with
  | nil =>
      intro p _ hp hlen
      cases hpn : p with
      | nil => simp [packGo, unpackBits]
      | cons a q =>
          subst hpn
          have hpos : 0 < (a :: q).length := by simp
          have hlb : (a :: q).length ≠ 0 := by simp
          have hlen8 : ((a :: q) ++ List.replicate (8 - (a :: q).length) 0).length = 8 := by
            simp only [List.length_append, List.length_replicate]
            omega
          have hbin : ∀ b ∈ (a :: q) ++ List.replicate (8 - (a :: q).length) 0, b < 2 := by
            intro b hb
            rcases List.mem_append.1 hb with h1 | h2
            · exact hp b h1
            · rw [List.eq_of_mem_replicate h2]; omega
          have hval : bitsToNat (a :: q) * 2 ^ (8 - (a :: q).length) =
              bitsToNat ((a :: q) ++ List.replicate (8 - (a :: q).length) 0) := by
            rw [bitsToNat_append, bitsToNat_replicate_zero, List.length_replicate]
            omega
          simp only [packGo, hpos, if_pos, unpackBits, List.nil_append, List.append_nil]
          rw [if_neg hlb, hval, byteBits_bitsToNat _ hlen8 hbin]
          exact List.take_left _ _
  | cons bit rest ih =>
      intro p hbits hp hlen
      have hbit : bit < 2 := hbits bit (by simp)
      have hrest : ∀ x ∈ rest, x < 2 := fun x hx => hbits x (List.mem_cons_of_mem _ hx)
      have hpb : ∀ x ∈ p ++ [bit], x < 2 := by
        intro x hx
        rcases List.mem_append.1 hx with h1 | h2
        · exact hp x h1
        · simp at h2; omega
      have hcur2 : bitsToNat p * 2 + bit = bitsToNat (p ++ [bit]) := (bitsToNat_concat p bit).symm
      have hlen8 : p.length + 1 = 8 → (p ++ [bit]).length = 8 := by
        intro h; simp only [List.length_append, List.length_cons, List.length_nil]; omega
      by_cases h8 : p.length + 1 = 8
      · -- the byte fills
        simp only [packGo, if_pos h8]
        rw [packGo_acc]
        dsimp only
        cases hrn : rest with
        | nil =>
            subst hrn
            simp only [packGo, List.nil_append]
            rw [if_neg (by omega : ¬ (0 : Nat) < 0)]
            simp only [List.append_nil, unpackBits]
            rw [if_neg (by omega : ¬ (8 : Nat) = 0), hcur2,
              byteBits_bitsToNat _ (hlen8 h8) hpb]
            rw [List.take_of_length_le (by rw [hlen8 h8])]
        | cons r rs =>
            have hne : (packGo rest 0 0 []).1 ≠ [] :=
              packGo_fst_ne_nil rest 0 0 (Or.inr (by simp [hrn]))
            rw [← hrn]
            simp only [List.nil_append, List.singleton_append]
            rw [unpackBits_cons _ _ _ hne]
            have ihz := ih [] hrest (by simp) (by simp)
            simp only [bitsToNat, List.foldl_nil, List.length_nil] at ihz
            rw [ihz, hcur2, byteBits_bitsToNat _ (hlen8 h8) hpb]
            simp
      · -- the byte is still partial
        simp only [packGo, if_neg h8]
        have := ih (p ++ [bit]) hrest hpb
          (by simp only [List.length_append, List.length_cons, List.length_nil]; omega)
        rw [bitsToNat_concat] at this
        have hl : (p ++ [bit]).length = p.length + 1 := by simp
        rw [hl] at this
        rw [this]
        simp

theorem unpack_packBits (bits : List Nat) (hbits : ∀ x ∈ bits, x < 2) :
    unpackBits (packBits bits).1 (packBits bits).2 = bits := by
  have := unpack_packGo bits [] hbits (by simp) (by simp)
  simpa [packBits, bitsToNat] using this

theorem packGo_snd (bits : List Nat) :
    ∀ cur cnt, cnt < 8 → (packGo bits cur cnt []).2 =
      if (cnt + bits.length) % 8 = 0 then 8 else (cnt + bits.length) % 8 := by
  induction bits with
  | nil =>
      intro cur cnt hcnt
      simp only [packGo, List.length_nil, Nat.add_zero]
      split
      · next h => rw [if_neg (by omega)]; omega
      · next h => rw [if_pos (by omega)]
  | cons bit rest ih =>
      intro cur cnt hcnt
      simp only [packGo, List.length_cons]
      by_cases h8 : cnt + 1 = 8
      · rw [if_pos h8, packGo_acc]
        dsimp only
        rw [ih 0 0 (by omega)]
        have hmod : (cnt + (rest.length + 1)) % 8 = (0 + rest.length) % 8 := by omega
        rw [hmod]
      · rw [if_neg h8, ih (cur * 2 + bit) (cnt + 1) (by omega)]
        have hmod : (cnt + 1 + rest.length) % 8 = (cnt + (rest.length + 1)) % 8 := by omega
        rw [hmod]

theorem packGo_last_padding (bits : List Nat) :
    ∀ cur cnt, cnt < 8 →
      ∀ v, ((packGo bits cur cnt []).1).getLast? = some v →
        v % 2 ^ (8 - (packGo bits cur cnt []).2) = 0 := by
  induction bits with
  | nil =>
      intro cur cnt hcnt v hv
      by_cases hc : 0 < cnt
      · simp only [packGo, if_pos hc, List.nil_append, List.getLast?_singleton,
          Option.some.injEq] at hv
        simp only [packGo, if_pos hc]
        subst hv
        exact Nat.mul_mod_left _ _
      · simp [packGo, hc] at hv
  | cons bit rest ih =>
      intro cur cnt hcnt v hv
      by_cases h8 : cnt + 1 = 8
      · simp only [packGo, if_pos h8] at hv ⊢
        rw [packGo_acc] at hv ⊢
        dsimp only at hv ⊢
        rcases hrt : (packGo rest 0 0 []).1 with _ | ⟨x, xs⟩
        · have hrest : rest = [] := by
            by_contra hne
            exact packGo_fst_ne_nil rest 0 0 (Or.inr hne) hrt
          subst hrest
          simp only [packGo, Nat.lt_irrefl, if_false, List.nil_append, List.append_nil,
            List.getLast?_singleton, Option.some.injEq] at hv ⊢
          subst hv
          omega
        · rw [hrt] at hv
          simp only [List.nil_append, List.singleton_append, List.getLast?_cons_cons] at hv
          exact ih 0 0 (by omega) v (by rw [hrt]; exact hv)
      · simp only [packGo, if_neg h8] at hv ⊢
        exact ih _ _ (by omega) v hv

/-! ## Heap and tree construction -/

theorem heapPush_mem (e x : HeapEntry) (h : List HeapEntry) :
    x ∈ heapPush e h ↔ x = e ∨ x ∈ h := by
  induction h with
  | nil => simp [heapPush]
  | cons y ys ih =>
      simp only [heapPush]
      split
      · simp [List.mem_cons]
      · simp only [List.mem_cons, ih]
        tauto

theorem foldl_heapPush_mem (l : List HeapEntry) :
    ∀ h0 x, x ∈ l.foldl (fun h e => heapPush e h) h0 ↔ x ∈ l ∨ x ∈ h0 := by
  induction l with
  | nil => simp
  | cons e l ih =>
      intro h0 x
      simp only [List.foldl_cons]
      rw [ih]
      simp only [heapPush_mem, List.mem_cons]
      tauto

theorem foldl_heapPush_length (l : List HeapEntry) :
    ∀ h0, (l.foldl (fun h e => heapPush e h) h0).length = h0.length + l.length := by
  induction l with
  | nil => simp
  | cons e l ih =>
      intro h0
      simp only [List.foldl_cons, List.length_cons]
      rw [ih, heapPush_length]
      omega

theorem buildLoop_singleton (fuel : Nat) (e : HeapEntry) (c : Nat) :
    buildLoop fuel [e] c = some e.2.2 := by
  cases fuel <;> rfl

theorem buildLoop_isSome (fuel : Nat) :
    ∀ h c, h ≠ [] → h.length ≤ fuel + 1 → ∃ t, buildLoop fuel h c = some t := by
  induction fuel with
  | zero =>
      intro h c hne hlen
      match h with
      | [] => exact absurd rfl hne
      | [e] => exact ⟨e.2.2, rfl⟩
      | e1 :: e2 :: rest => simp at hlen
  | succ n ih =>
      intro h c hne hlen
      match h with
      | [] => exact absurd rfl hne
      | [e] => exact ⟨e.2.2, rfl⟩
      | e1 :: e2 :: rest =>
          apply ih _ (c + 1)
          · have := heapPush_length (e1.1 + e2.1, c, HTree.node (e1.1 + e2.1) e1.2.2 e2.2.2) rest
            intro hnil
            rw [hnil] at this
            simp at this
          · rw [heapPush_length]
            simp only [List.length_cons] at hlen
            omega

theorem buildLoop_leafmem (fuel : Nat) :
    ∀ h c s t, buildLoop fuel h c = some t →
      (∃ e ∈ h, s ∈ HTree.leafSyms e.2.2) → s ∈ t.leafSyms := by
  induction fuel with
  | zero =>
      intro h c s t ht hmem
      match h, ht with
      | [e], ht =>
          obtain ⟨e', he', hs⟩ := hmem
          rw [List.mem_singleton] at he'
          subst he'
          cases ht
          exact hs
  | succ n ih =>
      intro h c s t ht hmem
      match h, ht with
      | [e], ht =>
          obtain ⟨e', he', hs⟩ := hmem
          rw [List.mem_singleton] at he'
          subst he'
          cases ht
          exact hs
      | e1 :: e2 :: rest, ht =>
          obtain ⟨e', he', hs⟩ := hmem
          apply ih _ (c + 1) s t ht
          rcases List.mem_cons.1 he' with h1 | h2
          · refine ⟨(e1.1 + e2.1, c, HTree.node (e1.1 + e2.1) e1.2.2 e2.2.2), ?_, ?_⟩
            · rw [heapPush_mem]; left; rfl
            · subst h1; simp [HTree.leafSyms]; left; exact hs
          rcases List.mem_cons.1 h2 with h1 | h3
          · refine ⟨(e1.1 + e2.1, c, HTree.node (e1.1 + e2.1) e1.2.2 e2.2.2), ?_, ?_⟩
            · rw [heapPush_mem]; left; rfl
            · subst h1; simp [HTree.leafSyms]; right; exact hs
          · exact ⟨e', (heapPush_mem _ _ _).2 (Or.inr h3), hs⟩

theorem buildLoop_internal (fuel : Nat) :
    ∀ h c t, 2 ≤ h.length → buildLoop fuel h c = some t →
      ∃ f l r, t = HTree.node f l r := by
  induction fuel with
  | zero =>
      intro h c t hlen ht
      match h, hlen, ht with
      | e1 :: e2 :: rest, _, ht => cases ht
  | succ n ih =>
      intro h c t hlen ht
      match h, hlen, ht with
      | e1 :: e2 :: rest, _, ht =>
          have hstep : buildLoop (n + 1) (e1 :: e2 :: rest) c = buildLoop n
              (heapPush (e1.1 + e2.1, c, HTree.node (e1.1 + e2.1) e1.2.2 e2.2.2) rest)
              (c + 1) := rfl
          rw [hstep] at ht
          cases rest with
          | nil =>
              rw [show heapPush (e1.1 + e2.1, c, HTree.node (e1.1 + e2.1) e1.2.2 e2.2.2) [] =
                [(e1.1 + e2.1, c, HTree.node (e1.1 + e2.1) e1.2.2 e2.2.2)] from rfl,
                buildLoop_singleton] at ht
              cases ht
              exact ⟨_, _, _, rfl⟩
          | cons r rs =>
              apply ih _ (c + 1) t _ ht
              rw [heapPush_length]
              simp

/-- Membership of `(k + i, l.getD i 0)` in `enumFrom k l`. -/
theorem mem_enumFrom_getD (l : List Nat) :
    ∀ k i, i < l.length → (k + i, l.getD i 0) ∈ List.enumFrom k l := by
  induction l with
  | nil => intro k i h; simp at h
  | cons x xs ih =>
      intro k i h
      cases i with
      | zero => simp [List.enumFrom]
      | succ n =>
          have hn : n < xs.length := by simpa using h
          have := ih (k + 1) n hn
          simp only [List.enumFrom, List.mem_cons]
          right
          have harith : k + (n + 1) = k + 1 + n := by omega
          rw [harith]
          simpa using this

theorem exists_enumFrom_mem {α : Type} (l : List α) (x : α) :
    ∀ k, x ∈ l → ∃ c, (c, x) ∈ List.enumFrom k l := by
  induction l with
  | nil => intro k h; simp at h
  | cons y ys ih =>
      intro k h
      rcases List.mem_cons.1 h with h1 | h2
      · exact ⟨k, by simp [List.enumFrom, h1]⟩
      · obtain ⟨c, hc⟩ := ih (k + 1) h2
        exact ⟨c, by simp [List.enumFrom]; right; exact hc⟩

theorem initEntries_mem (freq : List Nat) (s : Nat) (hs : s < freq.length)
    (hpos : 0 < freq.getD s 0) :
    ∃ c, (freq.getD s 0, c, HTree.leaf (freq.getD s 0) s) ∈ initEntries freq := by
  have h1 : (s, freq.getD s 0) ∈ freq.enum := by
    have := mem_enumFrom_getD freq 0 s hs
    simpa [List.enum] using this
  have h2 : (s, freq.getD s 0) ∈ freq.enum.filter (fun p => decide (0 < p.2)) :=
    List.mem_filter.2 ⟨h1, by simpa using hpos⟩
  obtain ⟨c, hc⟩ := exists_enumFrom_mem _ _ 0 h2
  refine ⟨c, ?_⟩
  unfold initEntries
  rw [List.mem_map]
  exact ⟨(c, (s, freq.getD s 0)), by simpa [List.enum] using hc, rfl⟩

theorem build_tree_eq_nil (freq : List Nat)
    (hh : (initEntries freq).foldl (fun h e => heapPush e h) [] = []) :
    build_huffman_tree freq = none := by
  unfold build_huffman_tree
  rw [hh]

theorem build_tree_eq_cons (freq : List Nat) (e0 : HeapEntry) (hrest : List HeapEntry)
    (hh : (initEntries freq).foldl (fun h e => heapPush e h) [] = e0 :: hrest) :
    build_huffman_tree freq =
      if hrest.isEmpty then
        buildLoop 2
          (heapPush (0, (initEntries freq).length,
            HTree.leaf 0 ((e0.2.2.leafSymbol + 1) % 256)) (e0 :: hrest))
          ((initEntries freq).length + 1)
      else
        buildLoop (e0 :: hrest).length (e0 :: hrest) (initEntries freq).length := by
  unfold build_huffman_tree
  rw [hh]

theorem build_tree_isSome (freq : List Nat) (s : Nat) (hs : s < freq.length)
    (hpos : 0 < freq.getD s 0) : ∃ t, build_huffman_tree freq = some t := by
  obtain ⟨c, hc⟩ := initEntries_mem freq s hs hpos
  have hlen := foldl_heapPush_length (initEntries freq) []
  have hne : (initEntries freq).foldl (fun h e => heapPush e h) [] ≠ [] := by
    intro hnil
    rw [hnil] at hlen
    simp only [List.length_nil] at hlen
    have : initEntries freq = [] := List.length_eq_zero.1 (by omega)
    rw [this] at hc
    simp at hc
  cases hh : (initEntries freq).foldl (fun h e => heapPush e h) [] with
  | nil => exact absurd hh hne
  | cons e0 hrest =>
      rw [build_tree_eq_cons freq e0 hrest hh]
      by_cases hemp : hrest.isEmpty
      · rw [if_pos hemp]
        apply buildLoop_isSome
        · intro hnil
          have := heapPush_length (0, (initEntries freq).length,
            HTree.leaf 0 ((e0.2.2.leafSymbol + 1) % 256)) (e0 :: hrest)
          rw [hnil] at this
          simp at this
        · rw [heapPush_length]
          rw [List.isEmpty_iff] at hemp
          simp [hemp]
      · rw [if_neg hemp]
        apply buildLoop_isSome
        · simp
        · simp

theorem build_tree_internal (freq : List Nat) (t : HTree)
    (ht : build_huffman_tree freq = some t) : ∃ f l r, t = HTree.node f l r := by
  cases hh : (initEntries freq).foldl (fun h e => heapPush e h) [] with
  | nil => rw [build_tree_eq_nil freq hh] at ht; cases ht
  | cons e0 hrest =>
      rw [build_tree_eq_cons freq e0 hrest hh] at ht
      by_cases hemp : hrest.isEmpty
      · rw [if_pos hemp] at ht
        refine buildLoop_internal 2 _ _ t ?_ ht
        rw [heapPush_length]
        rw [List.isEmpty_iff] at hemp
        simp [hemp]
      · rw [if_neg hemp] at ht
        refine buildLoop_internal _ _ _ t ?_ ht
        simp only [List.length_cons]
        have h1 : hrest ≠ [] := by simpa [List.isEmpty_iff] using hemp
        have h2 : 0 < hrest.length := List.length_pos.2 h1
        omega

theorem build_tree_leafmem (freq : List Nat) (s : Nat) (hs : s < freq.length)
    (hpos : 0 < freq.getD s 0) (t : HTree) (ht : build_huffman_tree freq = some t) :
    s ∈ t.leafSyms := by
  obtain ⟨c, hc⟩ := initEntries_mem freq s hs hpos
  have hheap : (freq.getD s 0, c, HTree.leaf (freq.getD s 0) s) ∈
      (initEntries freq).foldl (fun h e => heapPush e h) [] :=
    (foldl_heapPush_mem _ _ _).2 (Or.inl hc)
  cases hh : (initEntries freq).foldl (fun h e => heapPush e h) [] with
  | nil => rw [hh] at hheap; simp at hheap
  | cons e0 hrest =>
      rw [build_tree_eq_cons freq e0 hrest hh] at ht
      rw [hh] at hheap
      by_cases hemp : hrest.isEmpty
      · rw [if_pos hemp] at ht
        refine buildLoop_leafmem _ _ _ s t ht ?_
        refine ⟨(freq.getD s 0, c, HTree.leaf (freq.getD s 0) s), ?_, by simp [HTree.leafSyms]⟩
        rw [heapPush_mem]
        right
        exact hheap
      · rw [if_neg hemp] at ht
        exact buildLoop_leafmem _ _ _ s t ht
          ⟨(freq.getD s 0, c, HTree.leaf (freq.getD s 0) s), hheap, by simp [HTree.leafSyms]⟩

/-! ## Frequency tables -/

theorem freq_foldl_length (data : List Nat) :
    ∀ init : List Nat,
      (data.foldl (fun freq x => freq.set x (freq.getD x 0 + 1)) init).length = init.length := by
  induction data with
  | nil => simp
  | cons d rest ih =>
      intro init
      simp only [List.foldl_cons]
      rw [ih]
      simp

theorem build_freq_table_length (data : List Nat) : (build_freq_table data).length = 256 := by
  unfold build_freq_table
  rw [freq_foldl_length, List.length_replicate]

theorem freq_foldl_getD (data : List Nat) :
    ∀ (init : List Nat) (b : Nat), b < init.length → (∀ d ∈ data, d < init.length) →
      (data.foldl (fun freq x => freq.set x (freq.getD x 0 + 1)) init).getD b 0 =
        init.getD b 0 + data.count b := by
  induction data with
  | nil => simp
  | cons d rest ih =>
      intro init b hb hd
      have hdlt : d < init.length := hd d (by simp)
      simp only [List.foldl_cons]
      rw [ih _ b (by simpa using hb)
        (fun x hx => by simpa using hd x (List.mem_cons_of_mem _ hx))]
      have hset : (init.set d (init.getD d 0 + 1)).getD b 0 =
          init.getD b 0 + (if d = b then 1 else 0) := by
        by_cases hbd : d = b
        · subst hbd
          simp [List.getD_eq_getElem?_getD, List.getElem?_set_self hdlt]
        · simp [List.getD_eq_getElem?_getD, List.getElem?_set_ne hbd, hbd]
      rw [hset, List.count_cons]
      simp only [beq_iff_eq]
      omega

theorem build_freq_table_getD (data : List Nat) (b : Nat) (hb : b < 256)
    (hd : ∀ d ∈ data, d < 256) : (build_freq_table data).getD b 0 = data.count b := by
  unfold build_freq_table
  rw [freq_foldl_getD data _ b (by rw [List.length_replicate]; exact hb)
    (by rw [List.length_replicate]; exact hd)]
  have h0 : (List.replicate 256 (0 : Nat)).getD b 0 = 0 := by
    rw [List.getD_eq_getElem?_getD, List.getElem?_replicate]
    simp [hb]
  rw [h0, Nat.zero_add]

theorem build_freq_table_pos (data : List Nat) (b : Nat) (hb : b ∈ data)
    (hd : ∀ d ∈ data, d < 256) : 0 < (build_freq_table data).getD b 0 := by
  rw [build_freq_table_getD data b (hd b hb) hd]
  exact List.count_pos_iff.2 hb

theorem build_freq_table_nil : build_freq_table [] = List.replicate 256 0 := rfl

theorem build_tree_nil : build_huffman_tree (List.replicate 256 0) = none := by decide

/-! ## Code tables: every code is the bit path to its leaf, and the table is
prefix-free -/

/-- Following a bit path from a node: left on 0, right on 1; `none` when the
walk would descend from a leaf (the decoder's crash case). -/
def followPath : HTree → List Nat → Option HTree
  | t, [] => some t
  | .leaf _ _, _ :: _ => none
  | .node _ l r, bit :: bs => followPath (if bit = 0 then l else r) bs

theorem buildCodeDfs_path (t : HTree) :
    ∀ path, (path ≠ [] ∨ ∃ f l r, t = HTree.node f l r) →
      ∀ e ∈ buildCodeDfs t path,
        ∃ q f, e.2 = path ++ q ∧ followPath t q = some (HTree.leaf f e.1) ∧
          ((∃ ff ll rr, t = HTree.node ff ll rr) → q ≠ []) := by
  induction t with
  | leaf f s =>
      intro path hpre e he
      simp only [buildCodeDfs, List.mem_singleton] at he
      subst he
      rcases hpre with hne | ⟨_, _, _, habs⟩
      · have hni : path.isEmpty = false := by
          cases path with
          | nil => exact absurd rfl hne
          | cons a as => rfl
        refine ⟨[], f, ?_, rfl, ?_⟩
        · rw [hni]
          simp
        · rintro ⟨_, _, _, habs⟩
          cases habs
      · cases habs
  | node fr l r ihl ihr =>
      intro path _ e he
      simp only [buildCodeDfs, List.mem_append] at he
      rcases he with hl | hr
      · obtain ⟨q, f, hq, hf, _⟩ := ihl (path ++ [0]) (Or.inl (by simp)) e hl
        refine ⟨0 :: q, f, ?_, ?_, by simp⟩
        · rw [hq, List.append_assoc]
          rfl
        · simpa [followPath] using hf
      · obtain ⟨q, f, hq, hf, _⟩ := ihr (path ++ [1]) (Or.inl (by simp)) e hr
        refine ⟨1 :: q, f, ?_, ?_, by simp⟩
        · rw [hq, List.append_assoc]
          rfl
        · simpa [followPath] using hf

theorem buildCodeDfs_bits (t : HTree) :
    ∀ path, (∀ b ∈ path, b < 2) → ∀ e ∈ buildCodeDfs t path, ∀ b ∈ e.2, b < 2 := by
  induction t with
  | leaf f s =>
      intro path hp e he b hb
      simp only [buildCodeDfs, List.mem_singleton] at he
      subst he
      simp only at hb
      split at hb
      · simp at hb
        omega
      · exact hp b hb
  | node fr l r ihl ihr =>
      intro path hp e he b hb
      have hp0 : ∀ b ∈ path ++ [0], b < 2 := by
        intro x hx
        rcases List.mem_append.1 hx with h1 | h2
        · exact hp x h1
        · simp at h2; omega
      have hp1 : ∀ b ∈ path ++ [1], b < 2 := by
        intro x hx
        rcases List.mem_append.1 hx with h1 | h2
        · exact hp x h1
        · simp at h2; omega
      simp only [buildCodeDfs, List.mem_append] at he
      rcases he with hl | hr
      · exact ihl (path ++ [0]) hp0 e hl b hb
      · exact ihr (path ++ [1]) hp1 e hr b hb

theorem buildCodeDfs_exists (t : HTree) :
    ∀ path s, s ∈ t.leafSyms → ∃ p, (s, p) ∈ buildCodeDfs t path := by
  induction t with
  | leaf f s0 =>
      intro path s hs
      simp only [HTree.leafSyms, List.mem_singleton] at hs
      subst hs
      exact ⟨if path.isEmpty then [0] else path, by simp [buildCodeDfs]⟩
  | node fr l r ihl ihr =>
      intro path s hs
      simp only [HTree.leafSyms, List.mem_append] at hs
      rcases hs with h1 | h2
      · obtain ⟨p, hp⟩ := ihl (path ++ [0]) s h1
        exact ⟨p, by simp [buildCodeDfs]; left; exact hp⟩
      · obtain ⟨p, hp⟩ := ihr (path ++ [1]) s h2
        exact ⟨p, by simp [buildCodeDfs]; right; exact hp⟩

/-- Codes that branch at the same internal node are never prefixes of one
another: the core step of prefix-freeness. -/
theorem append_bit_not_prefix (a x y : List Nat) :
    ¬ (a ++ 0 :: x <+: a ++ 1 :: y) := by
  rintro ⟨tl, htl⟩
  rw [List.append_assoc] at htl
  have h1 := List.append_cancel_left htl
  simp at h1

theorem buildCodeDfs_mem_prefix (t : HTree) :
    ∀ path, ∀ e ∈ buildCodeDfs t path, ∃ q, e.2 = path ++ q := by
  induction t with
  | leaf f s =>
      intro path e he
      simp only [buildCodeDfs, List.mem_singleton] at he
      subst he
      simp only
      split
      · next hemp =>
        rw [List.isEmpty_iff] at hemp
        exact ⟨[0], by simp [hemp]⟩
      · exact ⟨[], by simp⟩
  | node fr l r ihl ihr =>
      intro path e he
      simp only [buildCodeDfs, List.mem_append] at he
      rcases he with hl | hr
      · obtain ⟨q, hq⟩ := ihl (path ++ [0]) e hl
        exact ⟨0 :: q, by rw [hq, List.append_assoc]; rfl⟩
      · obtain ⟨q, hq⟩ := ihr (path ++ [1]) e hr
        exact ⟨1 :: q, by rw [hq, List.append_assoc]; rfl⟩

theorem buildCodeDfs_prefix_free (t : HTree) :
    ∀ path, ∀ e1 ∈ buildCodeDfs t path, ∀ e2 ∈ buildCodeDfs t path,
      e1.1 ≠ e2.1 → ¬ e1.2 <+: e2.2 := by
  induction t with
  | leaf f s =>
      intro path e1 h1 e2 h2 hne
      simp only [buildCodeDfs, List.mem_singleton] at h1 h2
      subst h1
      subst h2
      exact absurd rfl hne
  | node fr l r ihl ihr =>
      intro path e1 h1 e2 h2 hne
      simp only [buildCodeDfs, List.mem_append] at h1 h2
      rcases h1 with h1l | h1r <;> rcases h2 with h2l | h2r
      · exact ihl (path ++ [0]) e1 h1l e2 h2l hne
      · obtain ⟨q1, hq1⟩ := buildCodeDfs_mem_prefix l (path ++ [0]) e1 h1l
        obtain ⟨q2, hq2⟩ := buildCodeDfs_mem_prefix r (path ++ [1]) e2 h2r
        rw [hq1, hq2, List.append_assoc, List.append_assoc]
        exact append_bit_not_prefix path q1 q2
      · obtain ⟨q1, hq1⟩ := buildCodeDfs_mem_prefix r (path ++ [1]) e1 h1r
        obtain ⟨q2, hq2⟩ := buildCodeDfs_mem_prefix l (path ++ [0]) e2 h2l
        rw [hq1, hq2, List.append_assoc, List.append_assoc]
        intro hpre
        obtain ⟨tl, htl⟩ := hpre
        rw [List.append_assoc] at htl
        have h1' := List.append_cancel_left htl
        simp at h1'
      · exact ihr (path ++ [1]) e1 h1r e2 h2r hne

/-! ## The tree-walk decoder inverts the encoder -/

theorem decodeBitsGo_step (root : HTree) (N : Nat) :
    ∀ (q : List Nat) (t : HTree) (f s : Nat), q ≠ [] →
      followPath t q = some (HTree.leaf f s) →
      ∀ rest out count,
        decodeBitsGo root N (q ++ rest) t out count =
          if count + 1 = N then .ok (out ++ [s])
          else decodeBitsGo root N rest root (out ++ [s]) (count + 1) := by
  intro q
  induction q with
  | nil => intro t f s hne; exact absurd rfl hne
  | cons bit q' ih =>
      intro t f s _ hf rest out count
      cases t with
      | leaf tf ts => simp [followPath] at hf
      | node nf l r =>
          simp only [followPath] at hf
          cases q' with
          | nil =>
              cases hchild : (if bit = 0 then l else r) with
              | leaf cf cs =>
                  rw [hchild] at hf
                  simp only [followPath, Option.some.injEq] at hf
                  cases hf
                  simp only [List.cons_append, List.nil_append, decodeBitsGo, hchild]
                  rfl
              | node cf cl cr =>
                  rw [hchild] at hf
                  simp [followPath] at hf
          | cons b2 qs =>
              cases hchild : (if bit = 0 then l else r) with
              | leaf cf cs =>
                  rw [hchild] at hf
                  simp [followPath] at hf
              | node cf cl cr =>
                  rw [hchild] at hf
                  have := ih (HTree.node cf cl cr) f s (by simp) hf rest out count
                  simp only [List.cons_append, decodeBitsGo, hchild]
                  exact this

theorem decode_encode (root : HTree) (codes : List (Nat × List Nat)) (N : Nat)
    (hpath : ∀ d q, codesFor codes d = .ok q →
      ∃ f, followPath root q = some (HTree.leaf f d) ∧ q ≠ []) :
    ∀ (data : List Nat) (bits : List Nat) (out : List Nat) (count : Nat),
      encode_bits data codes = .ok bits →
      count + data.length = N →
      decodeBitsGo root N bits root out count = .ok (out ++ data) := by
  intro data
  induction data with
  | nil =>
      intro bits out count henc hcnt
      simp only [encode_bits, Except.ok.injEq] at henc
      subst henc
      simp [decodeBitsGo]
  | cons d rest ih =>
      intro bits out count henc hcnt
      simp only [encode_bits] at henc
      cases hc : codesFor codes d with
      | error e =>
          rw [hc] at henc
          cases henc
      | ok c =>
          rw [hc] at henc
          cases hr : encode_bits rest codes with
          | error e =>
              rw [hr] at henc
              cases henc
          | ok br =>
              rw [hr] at henc
              have henc2 : (Except.ok (c ++ br) : Except String (List Nat)) = Except.ok bits := henc
              injection henc2 with hb
              subst hb
              obtain ⟨f, hfollow, hcne⟩ := hpath d c hc
              rw [decodeBitsGo_step root N c root f d hcne hfollow br out count]
              simp only [List.length_cons] at hcnt
              by_cases hNc : count + 1 = N
              · rw [if_pos hNc]
                have hrest : rest = [] := by
                  have : rest.length = 0 := by omega
                  exact List.length_eq_zero.1 this
                subst hrest
                simp
              · rw [if_neg hNc]
                have := ih br (out ++ [d]) (count + 1) hr (by omega)
                rw [this]
                simp

/-! ## The Huffman core round-trip -/

theorem codesFor_ok_path (root : HTree) (hint : ∃ f l r, root = HTree.node f l r)
    (d : Nat) (q : List Nat) (hok : codesFor (build_code_table root) d = .ok q) :
    ∃ f, followPath root q = some (HTree.leaf f d) ∧ q ≠ [] := by
  unfold codesFor at hok
  cases hfind : (build_code_table root).find? (fun e => e.1 == d) with
  | none => rw [hfind] at hok; cases hok
  | some e =>
      rw [hfind] at hok
      injection hok with hq
      have hmem : e ∈ build_code_table root := List.mem_of_find?_eq_some hfind
      have hed : e.1 = d := by simpa using List.find?_some hfind
      obtain ⟨q', f, hq', hfollow, hqne⟩ :=
        buildCodeDfs_path root [] (Or.inr hint) e hmem
      rw [List.nil_append] at hq'
      rw [← hq, hq']
      rw [hed] at hfollow
      exact ⟨f, hfollow, hqne hint⟩

theorem codesFor_isOk (root : HTree) (s : Nat) (hs : s ∈ root.leafSyms) :
    ∃ q, codesFor (build_code_table root) s = .ok q := by
  obtain ⟨p, hp⟩ := buildCodeDfs_exists root [] s hs
  cases hfind : (build_code_table root).find? (fun e => e.1 == s) with
  | none =>
      exfalso
      have := List.find?_eq_none.1 hfind (s, p) hp
      simp at this
  | some e =>
      exact ⟨e.2, by unfold codesFor; rw [hfind]⟩

theorem codesFor_binary (root : HTree) (d : Nat) (q : List Nat)
    (hok : codesFor (build_code_table root) d = .ok q) : ∀ b ∈ q, b < 2 := by
  unfold codesFor at hok
  cases hfind : (build_code_table root).find? (fun e => e.1 == d) with
  | none => rw [hfind] at hok; cases hok
  | some e =>
      rw [hfind] at hok
      injection hok with hq
      have hmem : e ∈ build_code_table root := List.mem_of_find?_eq_some hfind
      rw [← hq]
      exact buildCodeDfs_bits root [] (by simp) e hmem

theorem encode_bits_isOk (codes : List (Nat × List Nat)) :
    ∀ data : List Nat, (∀ d ∈ data, ∃ q, codesFor codes d = .ok q) →
      ∃ bits, encode_bits data codes = .ok bits := by
  intro data
  induction data with
  | nil => exact fun _ => ⟨[], rfl⟩
  | cons d rest ih =>
      intro h
      obtain ⟨q, hq⟩ := h d (by simp)
      obtain ⟨br, hbr⟩ := ih (fun x hx => h x (List.mem_cons_of_mem _ hx))
      refine ⟨q ++ br, ?_⟩
      simp only [encode_bits]
      rw [hq, hbr]
      rfl

theorem encode_bits_binary (codes : List (Nat × List Nat))
    (hcb : ∀ d q, codesFor codes d = .ok q → ∀ b ∈ q, b < 2) :
    ∀ data bits, encode_bits data codes = .ok bits → ∀ b ∈ bits, b < 2 := by
  intro data
  induction data with
  | nil =>
      intro bits h
      have h2 : (Except.ok [] : Except String (List Nat)) = .ok bits := h
      injection h2 with hb
      subst hb
      simp
  | cons d rest ih =>
      intro bits h
      simp only [encode_bits] at h
      cases hc : codesFor codes d with
      | error e => rw [hc] at h; cases h
      | ok c =>
          rw [hc] at h
          cases hr : encode_bits rest codes with
          | error e => rw [hr] at h; cases h
          | ok br =>
              rw [hr] at h
              have h2 : (Except.ok (c ++ br) : Except String (List Nat)) = .ok bits := h
              injection h2 with hb
              subst hb
              intro b hb
              rcases List.mem_append.1 hb with h1 | h2
              · exact hcb d c hc b h1
              · exact ih br hr b h2

theorem compress_core_eq_none (data : List Nat)
    (hroot : build_huffman_tree (build_freq_table data) = none) :
    huffman_compress_core data = .ok (build_freq_table data, 0, []) := by
  unfold huffman_compress_core
  rw [hroot]

theorem compress_core_eq_some (data : List Nat) (root : HTree)
    (hroot : build_huffman_tree (build_freq_table data) = some root) :
    huffman_compress_core data =
      (do
        let bl ← encode_data data (build_code_table root)
        Except.ok (build_freq_table data, bl.2, bl.1)) := by
  unfold huffman_compress_core
  rw [hroot]

theorem decompress_core_eq_some (freq : List Nat) (root : HTree) (bs : List Nat) (N lb : Nat)
    (hroot : build_huffman_tree freq = some root) :
    huffman_decompress_core freq bs N lb =
      if N = 0 then .ok [] else decode_bitstream (some root) bs N lb := by
  unfold huffman_decompress_core
  rw [hroot]

theorem decode_bitstream_some (r : HTree) (bs : List Nat) (N lb : Nat) (hN : N ≠ 0) :
    decode_bitstream (some r) bs N lb = decodeBitsGo r N (unpackBits bs lb) r [] 0 := by
  unfold decode_bitstream
  rw [if_neg hN]

theorem decompress_core_N0 (freq : List Nat) (bs : List Nat) (lb : Nat) :
    huffman_decompress_core freq bs 0 lb = .ok [] := by
  unfold huffman_decompress_core
  cases build_huffman_tree freq with
  | none => rfl
  | some root => rfl

/-- The reusable core inverts itself: decompressing with the stored frequency
table, bitstream, symbol count and lastbits returns the original data. -/
theorem core_roundtrip (data : List Nat) (hbytes : ∀ b ∈ data, b < 256)
    (freq : List Nat) (lastbits : Nat) (bitstream : List Nat)
    (h : huffman_compress_core data = .ok (freq, lastbits, bitstream)) :
    huffman_decompress_core freq bitstream data.length lastbits = .ok data := by
  cases hroot : build_huffman_tree (build_freq_table data) with
  | none =>
      cases data with
      | nil => exact decompress_core_N0 freq bitstream lastbits
      | cons b rest =>
          exfalso
          have hb256 := hbytes b (by simp)
          have hpos := build_freq_table_pos (b :: rest) b (by simp) hbytes
          obtain ⟨t, ht⟩ := build_tree_isSome (build_freq_table (b :: rest)) b
            (by rw [build_freq_table_length]; exact hb256) hpos
          rw [hroot] at ht
          cases ht
  | some root =>
      rw [compress_core_eq_some data root hroot] at h
      have hne : data ≠ [] := by
        intro hnil
        subst hnil
        rw [build_freq_table_nil, build_tree_nil] at hroot
        cases hroot
      have hisEmpty : data.isEmpty = false := by
        cases data with
        | nil => exact absurd rfl hne
        | cons a as => rfl
      unfold encode_data at h
      rw [if_neg (by simp [hisEmpty] : ¬ data.isEmpty = true)] at h
      cases hbits : encode_bits data (build_code_table root) with
      | error e => rw [hbits] at h; cases h
      | ok bits =>
          rw [hbits] at h
          have h2 : (Except.ok (build_freq_table data, (packBits bits).2, (packBits bits).1) :
              Except String (List Nat × Nat × List Nat)) = .ok (freq, lastbits, bitstream) := h
          injection h2 with h3
          rw [Prod.mk.injEq] at h3
          obtain ⟨hfreq, h4⟩ := h3
          rw [Prod.mk.injEq] at h4
          obtain ⟨hlb, hbs⟩ := h4
          have hN : data.length ≠ 0 := by
            intro h0
            exact hne (List.length_eq_zero.1 h0)
          rw [← hfreq, decompress_core_eq_some _ root _ _ _ hroot, if_neg hN,
            decode_bitstream_some _ _ _ _ hN]
          have hbin : ∀ b ∈ bits, b < 2 :=
            encode_bits_binary _ (codesFor_binary root) data bits hbits
          have hunpack : unpackBits bitstream lastbits = bits := by
            rw [← hbs, ← hlb]
            exact unpack_packBits bits hbin
          rw [hunpack]
          have hpath : ∀ d q, codesFor (build_code_table root) d = .ok q →
              ∃ f, followPath root q = some (HTree.leaf f d) ∧ q ≠ [] :=
            fun d q hok => codesFor_ok_path root (build_tree_internal _ root hroot) d q hok
          have := decode_encode root (build_code_table root) data.length hpath data bits [] 0
            hbits (by omega)
          simpa using this

/-- The compress core succeeds and reports the stream's own length statistics
whenever the input is made of bytes. -/
theorem core_compress_isOk (data : List Nat) (hbytes : ∀ b ∈ data, b < 256) :
    ∃ freq lastbits bitstream,
      huffman_compress_core data = .ok (freq, lastbits, bitstream) ∧
      freq = build_freq_table data := by
  cases hroot : build_huffman_tree (build_freq_table data) with
  | none => exact ⟨_, _, _, by rw [compress_core_eq_none data hroot], rfl⟩
  | some root =>
      have hne : data ≠ [] := by
        intro hnil
        subst hnil
        rw [build_freq_table_nil, build_tree_nil] at hroot
        cases hroot
      have hisEmpty : data.isEmpty = false := by
        cases data with
        | nil => exact absurd rfl hne
        | cons a as => rfl
      have hcodes : ∀ d ∈ data, ∃ q, codesFor (build_code_table root) d = .ok q := by
        intro d hd
        apply codesFor_isOk
        apply build_tree_leafmem (build_freq_table data) d
          (by rw [build_freq_table_length]; exact hbytes d hd)
          (build_freq_table_pos data d hd hbytes) root hroot
      obtain ⟨bits, hbits⟩ := encode_bits_isOk _ data hcodes
      refine ⟨build_freq_table data, (packBits bits).2, (packBits bits).1, ?_, rfl⟩
      rw [compress_core_eq_some data root hroot]
      unfold encode_data
      rw [if_neg (by simp [hisEmpty] : ¬ data.isEmpty = true)]
      rw [hbits]
      rfl

/-! ## Serialization -/

theorem except_bind_ok {α β : Type} (a : α) (f : α → Except String β) :
    (Except.ok a >>= f) = f a := rfl

theorem except_map_ok {α β : Type} (a : α) (f : α → β) :
    (Except.ok a : Except String α).map f = Except.ok (f a) := rfl

theorem take_len_append {α : Type} (a b : List α) (n : Nat) (h : a.length = n) :
    (a ++ b).take n = a := by
  subst h
  exact List.take_left a b

theorem drop_len_append {α : Type} (a b : List α) (n : Nat) (h : a.length = n) :
    (a ++ b).drop n = b := by
  subst h
  exact List.drop_left a b

theorem readByte_at (a : List Nat) (x : Nat) (b : List Nat) (n : Nat) (h : a.length = n) :
    readByte (a ++ x :: b) n = .ok x := by
  unfold readByte
  rw [drop_len_append a (x :: b) n h]

theorem toBytesAux_length (k : Nat) : ∀ n, (toBytesAux k n).length = k := by
  induction k with
  | zero => intro n; rfl
  | succ m ih =>
      intro n
      simp only [toBytesAux, List.length_append, List.length_cons, List.length_nil, ih]

theorem from_bytes_append_singleton (xs : List Nat) (b : Nat) :
    from_bytes (xs ++ [b]) = from_bytes xs * 256 + b := by
  simp [from_bytes, List.foldl_append]

theorem from_bytes_toBytesAux (k : Nat) : ∀ n, n < 256 ^ k → from_bytes (toBytesAux k n) = n := by
  induction k with
  | zero =>
      intro n h
      simp only [Nat.pow_zero, Nat.lt_one_iff] at h
      subst h
      rfl
  | succ m ih =>
      intro n h
      have hdiv : n / 256 < 256 ^ m := by
        rw [Nat.div_lt_iff_lt_mul (by omega)]
        calc n < 256 ^ (m + 1) := h
        _ = 256 ^ m * 256 := by ring
      simp only [toBytesAux, from_bytes_append_singleton, ih (n / 256) hdiv]
      omega

theorem to_bytes_ok (k n : Nat) (h : n < 256 ^ k) : to_bytes k n = .ok (toBytesAux k n) := by
  unfold to_bytes
  rw [if_pos h]

theorem serialize_u32s_ok (l : List Nat) (hb : ∀ f ∈ l, f < 2 ^ 32) :
    ∃ bs, serialize_u32s l = .ok bs ∧ bs.length = 4 * l.length ∧
      ∀ tail, read_u32s l.length (bs ++ tail) = l := by
  induction l with
  | nil => exact ⟨[], rfl, rfl, fun tail => rfl⟩
  | cons f rest ih =>
      obtain ⟨bs', hok, hlen, hread⟩ := ih (fun x hx => hb x (List.mem_cons_of_mem _ hx))
      have hf : f < 256 ^ 4 := by
        have := hb f (by simp)
        norm_num at this ⊢
        omega
      refine ⟨toBytesAux 4 f ++ bs', ?_, ?_, ?_⟩
      · simp only [serialize_u32s]
        rw [to_bytes_ok 4 f hf, except_bind_ok, hok, except_bind_ok]
      · simp only [List.length_append, toBytesAux_length, hlen, List.length_cons]
        ring
      · intro tail
        simp only [List.length_cons, read_u32s, List.append_assoc]
        rw [take_len_append (toBytesAux 4 f) (bs' ++ tail) 4 (toBytesAux_length 4 f),
          drop_len_append (toBytesAux 4 f) (bs' ++ tail) 4 (toBytesAux_length 4 f),
          hread tail, from_bytes_toBytesAux 4 f hf]

theorem freq_entries_lt (data : List Nat) (hbytes : ∀ b ∈ data, b < 256)
    (hlen : data.length < 2 ^ 32) : ∀ f ∈ build_freq_table data, f < 2 ^ 32 := by
  intro f hf
  obtain ⟨i, hi, hget⟩ := List.mem_iff_getElem.1 hf
  have hi256 : i < 256 := by
    rw [build_freq_table_length data] at hi
    exact hi
  have hcount : (build_freq_table data).getD i 0 = data.count i :=
    build_freq_table_getD data i hi256 hbytes
  rw [List.getD_eq_getElem?_getD, List.getElem?_eq_getElem hi] at hcount
  simp only [Option.getD_some] at hcount
  rw [hget] at hcount
  calc f = data.count i := hcount
  _ ≤ data.length := List.count_le_length i data
  _ < 2 ^ 32 := hlen

/-- Format-1 round trip: the header written by `compress_bytes_v1` parses back
to the same fields and the core inverts itself. -/
theorem roundtrip_v1 (data : List Nat) (hbytes : ∀ b ∈ data, b < 256)
    (hlen : data.length < 2 ^ 32) :
    ∃ c, compress_bytes_v1 data = .ok c ∧ decompress_bytes_v1 c = .ok data := by
  obtain ⟨freq, lastbits, bitstream, hcore, hfreqeq⟩ := core_compress_isOk data hbytes
  have hfreqlen : freq.length = 256 := by rw [hfreqeq]; exact build_freq_table_length data
  have hfbound : ∀ f ∈ freq, f < 2 ^ 32 := by
    rw [hfreqeq]
    exact freq_entries_lt data hbytes hlen
  obtain ⟨fB, hfB, hfBlen, hfBread⟩ := serialize_u32s_ok freq hfbound
  have hN64 : data.length < 256 ^ 8 := by
    calc data.length < 2 ^ 32 := hlen
    _ < 256 ^ 8 := by norm_num
  have hnBlen : (toBytesAux 8 data.length).length = 8 := toBytesAux_length 8 _
  refine ⟨MAGIC ++ [VERSION_STEP1] ++ toBytesAux 8 data.length ++ fB ++ [lastbits] ++ bitstream,
    ?_, ?_⟩
  · unfold compress_bytes_v1
    rw [hcore, except_bind_ok]
    dsimp only
    rw [to_bytes_ok 8 data.length hN64, except_bind_ok, hfB, except_bind_ok]
  · have hfBlen' : fB.length = 1024 := by rw [hfBlen, hfreqlen]
    have hassoc : MAGIC ++ [VERSION_STEP1] ++ toBytesAux 8 data.length ++ fB ++
        [lastbits] ++ bitstream =
        (MAGIC ++ [VERSION_STEP1]) ++ (toBytesAux 8 data.length ++
          (fB ++ ([lastbits] ++ bitstream))) := by
      simp [List.append_assoc]
    have hlen4 : (MAGIC ++ [VERSION_STEP1]).length = 4 := rfl
    have hclen : (MAGIC ++ [VERSION_STEP1] ++ toBytesAux 8 data.length ++ fB ++
        [lastbits] ++ bitstream).length = 1037 + bitstream.length := by
      simp only [List.length_append, List.length_cons, List.length_nil, hnBlen, hfBlen']
      norm_num [MAGIC]
    unfold decompress_bytes_v1
    rw [if_neg (by rw [hclen]; omega)]
    rw [if_neg (show ¬ ((MAGIC ++ [VERSION_STEP1] ++ toBytesAux 8 data.length ++ fB ++
        [lastbits] ++ bitstream).take 3 ≠ MAGIC) from ?hmagic)]
    case hmagic =>
      rw [hassoc, List.append_assoc MAGIC [VERSION_STEP1]]
      rw [take_len_append MAGIC _ 3 rfl]
      exact fun h => h rfl
    have hver : readByte (MAGIC ++ [VERSION_STEP1] ++ toBytesAux 8 data.length ++ fB ++
        [lastbits] ++ bitstream) 3 = .ok VERSION_STEP1 := by
      rw [hassoc, List.append_assoc MAGIC [VERSION_STEP1]]
      exact readByte_at MAGIC VERSION_STEP1 _ 3 rfl
    rw [hver, except_bind_ok]
    rw [if_neg (by simp : ¬ VERSION_STEP1 ≠ VERSION_STEP1)]
    have hdrop4 : (MAGIC ++ [VERSION_STEP1] ++ toBytesAux 8 data.length ++ fB ++
        [lastbits] ++ bitstream).drop 4 =
        toBytesAux 8 data.length ++ (fB ++ ([lastbits] ++ bitstream)) := by
      rw [hassoc]
      exact drop_len_append _ _ 4 hlen4
    have hN : from_bytes (((MAGIC ++ [VERSION_STEP1] ++ toBytesAux 8 data.length ++ fB ++
        [lastbits] ++ bitstream).drop 4).take 8) = data.length := by
      rw [hdrop4, take_len_append _ _ 8 hnBlen]
      exact from_bytes_toBytesAux 8 data.length hN64
    have hdrop12 : (MAGIC ++ [VERSION_STEP1] ++ toBytesAux 8 data.length ++ fB ++
        [lastbits] ++ bitstream).drop 12 = fB ++ ([lastbits] ++ bitstream) := by
      have : MAGIC ++ [VERSION_STEP1] ++ toBytesAux 8 data.length ++ fB ++
          [lastbits] ++ bitstream =
          (MAGIC ++ [VERSION_STEP1] ++ toBytesAux 8 data.length) ++
            (fB ++ ([lastbits] ++ bitstream)) := by
        simp [List.append_assoc]
      rw [this]
      refine drop_len_append _ _ 12 ?_
      simp [hnBlen, MAGIC]
    have hfreqparse : read_u32s 256 ((MAGIC ++ [VERSION_STEP1] ++ toBytesAux 8 data.length ++
        fB ++ [lastbits] ++ bitstream).drop 12) = freq := by
      rw [hdrop12]
      have := hfBread ([lastbits] ++ bitstream)
      rw [hfreqlen] at this
      exact this
    have hlast : readByte (MAGIC ++ [VERSION_STEP1] ++ toBytesAux 8 data.length ++ fB ++
        [lastbits] ++ bitstream) 1036 = .ok lastbits := by
      have : MAGIC ++ [VERSION_STEP1] ++ toBytesAux 8 data.length ++ fB ++
          [lastbits] ++ bitstream =
          (MAGIC ++ [VERSION_STEP1] ++ toBytesAux 8 data.length ++ fB) ++
            (lastbits :: bitstream) := by
        simp [List.append_assoc]
      rw [this]
      refine readByte_at _ _ _ 1036 ?_
      simp [hnBlen, hfBlen', MAGIC]
    have hdrop1037 : (MAGIC ++ [VERSION_STEP1] ++ toBytesAux 8 data.length ++ fB ++
        [lastbits] ++ bitstream).drop 1037 = bitstream := by
      have : MAGIC ++ [VERSION_STEP1] ++ toBytesAux 8 data.length ++ fB ++
          [lastbits] ++ bitstream =
          (MAGIC ++ [VERSION_STEP1] ++ toBytesAux 8 data.length ++ fB ++ [lastbits]) ++
            bitstream := by
        simp [List.append_assoc]
      rw [this]
      refine drop_len_append _ _ 1037 ?_
      simp [hnBlen, hfBlen', MAGIC]
    rw [hN, hfreqparse, hlast, except_bind_ok, hdrop1037]
    exact core_roundtrip data hbytes freq lastbits bitstream hcore

/-! ## Format 2: the three-way split and its inverse -/

theorem except_bind_ok_inv {α β : Type} (x : Except String α) (f : α → Except String β) (b : β)
    (h : (x >>= f) = .ok b) : ∃ a, x = .ok a ∧ f a = .ok b := by
  cases x with
  | error e => cases h
  | ok a => exact ⟨a, rfl, h⟩

theorem to_bytes_ok_inv (k n : Nat) (bs : List Nat) (h : to_bytes k n = .ok bs) :
    n < 256 ^ k ∧ bs = toBytesAux k n := by
  unfold to_bytes at h
  split at h
  · next hlt =>
    injection h with hb
    exact ⟨hlt, hb.symm⟩
  · cases h

theorem serialize_u32s_ok_inv (l : List Nat) :
    ∀ bs, serialize_u32s l = .ok bs →
      bs.length = 4 * l.length ∧ ∀ tail, read_u32s l.length (bs ++ tail) = l := by
  induction l with
  | nil =>
      intro bs h
      have h2 : (Except.ok [] : Except String (List Nat)) = .ok bs := h
      injection h2 with hb
      subst hb
      exact ⟨rfl, fun tail => rfl⟩
  | cons f rest ih =>
      intro bs h
      simp only [serialize_u32s] at h
      obtain ⟨b4, hb4, h⟩ := except_bind_ok_inv _ _ _ h
      obtain ⟨bs', hbs', h⟩ := except_bind_ok_inv _ _ _ h
      obtain ⟨hflt, hb4eq⟩ := to_bytes_ok_inv 4 f b4 hb4
      have h2 : (Except.ok (b4 ++ bs') : Except String (List Nat)) = .ok bs := h
      injection h2 with hb
      subst hb
      obtain ⟨hlen', hread'⟩ := ih bs' hbs'
      subst hb4eq
      constructor
      · simp only [List.length_append, toBytesAux_length, hlen', List.length_cons]
        ring
      · intro tail
        simp only [List.length_cons, read_u32s, List.append_assoc]
        rw [take_len_append (toBytesAux 4 f) (bs' ++ tail) 4 (toBytesAux_length 4 f),
          drop_len_append (toBytesAux 4 f) (bs' ++ tail) 4 (toBytesAux_length 4 f),
          hread' tail, from_bytes_toBytesAux 4 f hflt]

theorem split_streams_v2_lengths (data : List Nat) :
    (split_streams_v2 data).1.length = data.length ∧
      (split_streams_v2 data).2.1.length + (split_streams_v2 data).2.2.length =
        data.length := by
  induction data with
  | nil => exact ⟨rfl, rfl⟩
  | cons b rest ih =>
      obtain ⟨ih1, ih2⟩ := ih
      simp only [split_streams_v2]
      by_cases hv : is_vowel_byte b
      · rw [if_pos hv]
        constructor <;> simp [ih1, ih2] <;> omega
      · by_cases ha : chr_isalpha b
        · rw [if_neg hv, if_pos ha]
          constructor <;> simp [ih1, ih2] <;> omega
        · rw [if_neg hv, if_neg ha]
          constructor <;> simp [ih1, ih2] <;> omega

theorem split_streams_v2_mask_bytes (data : List Nat) :
    ∀ b ∈ (split_streams_v2 data).1, b < 256 := by
  induction data with
  | nil => simp [split_streams_v2]
  | cons b rest ih =>
      simp only [split_streams_v2]
      by_cases hv : is_vowel_byte b
      · rw [if_pos hv]
        intro x hx
        rcases List.mem_cons.1 hx with h1 | h2
        · omega
        · exact ih x h2
      · by_cases ha : chr_isalpha b
        · rw [if_neg hv, if_pos ha]
          intro x hx
          rcases List.mem_cons.1 hx with h1 | h2
          · omega
          · exact ih x h2
        · rw [if_neg hv, if_neg ha]
          intro x hx
          rcases List.mem_cons.1 hx with h1 | h2
          · omega
          · exact ih x h2

theorem split_streams_v2_vowels_sub (data : List Nat) :
    ∀ b ∈ (split_streams_v2 data).2.1, b ∈ data := by
  induction data with
  | nil => simp [split_streams_v2]
  | cons b rest ih =>
      simp only [split_streams_v2]
      by_cases hv : is_vowel_byte b
      · rw [if_pos hv]
        intro x hx
        rcases List.mem_cons.1 hx with h1 | h2
        · simp [h1]
        · exact List.mem_cons_of_mem _ (ih x h2)
      · by_cases ha : chr_isalpha b
        · rw [if_neg hv, if_pos ha]
          intro x hx
          exact List.mem_cons_of_mem _ (ih x hx)
        · rw [if_neg hv, if_neg ha]
          intro x hx
          exact List.mem_cons_of_mem _ (ih x hx)

theorem split_streams_v2_cons_sub (data : List Nat) :
    ∀ b ∈ (split_streams_v2 data).2.2, b ∈ data := by
  induction data with
  | nil => simp [split_streams_v2]
  | cons b rest ih =>
      simp only [split_streams_v2]
      by_cases hv : is_vowel_byte b
      · rw [if_pos hv]
        intro x hx
        exact List.mem_cons_of_mem _ (ih x hx)
      · by_cases ha : chr_isalpha b
        · rw [if_neg hv, if_pos ha]
          intro x hx
          rcases List.mem_cons.1 hx with h1 | h2
          · simp [h1]
          · exact List.mem_cons_of_mem _ (ih x h2)
        · rw [if_neg hv, if_neg ha]
          intro x hx
          rcases List.mem_cons.1 hx with h1 | h2
          · simp [h1]
          · exact List.mem_cons_of_mem _ (ih x h2)

/-- Reconstruction from the split streams is the identity. -/
theorem merge_split_v2 (data : List Nat) :
    merge_streams_v2 (split_streams_v2 data).1 (split_streams_v2 data).2.1
      (split_streams_v2 data).2.2 = .ok data := by
  induction data with
  | nil => rfl
  | cons b rest ih =>
      simp only [split_streams_v2]
      by_cases hv : is_vowel_byte b
      · rw [if_pos hv]
        show merge_streams_v2 (86 :: (split_streams_v2 rest).1)
          (b :: (split_streams_v2 rest).2.1) (split_streams_v2 rest).2.2 = .ok (b :: rest)
        unfold merge_streams_v2
        rw [if_pos rfl]
        show (do
          let r ← merge_streams_v2 (split_streams_v2 rest).1 (split_streams_v2 rest).2.1
            (split_streams_v2 rest).2.2
          Except.ok (b :: r)) = Except.ok (b :: rest)
        rw [ih]
        rfl
      · by_cases ha : chr_isalpha b
        · rw [if_neg hv, if_pos ha]
          show merge_streams_v2 (67 :: (split_streams_v2 rest).1)
            (split_streams_v2 rest).2.1 (b :: (split_streams_v2 rest).2.2) = .ok (b :: rest)
          unfold merge_streams_v2
          rw [if_neg (by omega : ¬ (67 : Nat) = 86)]
          show (do
            let r ← merge_streams_v2 (split_streams_v2 rest).1 (split_streams_v2 rest).2.1
              (split_streams_v2 rest).2.2
            Except.ok (b :: r)) = Except.ok (b :: rest)
          rw [ih]
          rfl
        · rw [if_neg hv, if_neg ha]
          show merge_streams_v2 (79 :: (split_streams_v2 rest).1)
            (split_streams_v2 rest).2.1 (b :: (split_streams_v2 rest).2.2) = .ok (b :: rest)
          unfold merge_streams_v2
          rw [if_neg (by omega : ¬ (79 : Nat) = 86)]
          show (do
            let r ← merge_streams_v2 (split_streams_v2 rest).1 (split_streams_v2 rest).2.1
              (split_streams_v2 rest).2.2
            Except.ok (b :: r)) = Except.ok (b :: rest)
          rw [ih]
          rfl

theorem compress_core_freq (data : List Nat) (flb : List Nat × Nat × List Nat)
    (h : huffman_compress_core data = .ok flb) : flb.1 = build_freq_table data := by
  cases hroot : build_huffman_tree (build_freq_table data) with
  | none =>
      rw [compress_core_eq_none data hroot] at h
      injection h with h2
      rw [← h2]
  | some root =>
      rw [compress_core_eq_some data root hroot] at h
      obtain ⟨bl, hbl, h⟩ := except_bind_ok_inv _ _ _ h
      injection h with h2
      rw [← h2]

/-- Format-2 round trip: any container `compress_bytes_v2` produces parses
back to the three streams, each stream decodes to its original content, and
the mask-driven interleave restores the input. -/
theorem roundtrip_v2 (data : List Nat) (hbytes : ∀ b ∈ data, b < 256) (c : List Nat)
    (hcomp : compress_bytes_v2 data = .ok c) : decompress_bytes_v2 c = .ok data := by
  unfold compress_bytes_v2 at hcomp
  obtain ⟨m, hm, hcomp⟩ := except_bind_ok_inv _ _ _ hcomp
  obtain ⟨v, hv, hcomp⟩ := except_bind_ok_inv _ _ _ hcomp
  obtain ⟨cc, hcc, hcomp⟩ := except_bind_ok_inv _ _ _ hcomp
  obtain ⟨nB, hnB, hcomp⟩ := except_bind_ok_inv _ _ _ hcomp
  obtain ⟨lvB, hlvB, hcomp⟩ := except_bind_ok_inv _ _ _ hcomp
  obtain ⟨lcB, hlcB, hcomp⟩ := except_bind_ok_inv _ _ _ hcomp
  obtain ⟨fmB, hfmB, hcomp⟩ := except_bind_ok_inv _ _ _ hcomp
  obtain ⟨bmB, hbmB, hcomp⟩ := except_bind_ok_inv _ _ _ hcomp
  obtain ⟨fvB, hfvB, hcomp⟩ := except_bind_ok_inv _ _ _ hcomp
  obtain ⟨bvB, hbvB, hcomp⟩ := except_bind_ok_inv _ _ _ hcomp
  obtain ⟨fcB, hfcB, hcomp⟩ := except_bind_ok_inv _ _ _ hcomp
  obtain ⟨bcB, hbcB, hcomp⟩ := except_bind_ok_inv _ _ _ hcomp
  injection hcomp with hceq
  obtain ⟨hNlt, hnBeq⟩ := to_bytes_ok_inv _ _ _ hnB
  obtain ⟨hVlt, hlvBeq⟩ := to_bytes_ok_inv _ _ _ hlvB
  obtain ⟨hClt, hlcBeq⟩ := to_bytes_ok_inv _ _ _ hlcB
  obtain ⟨hBMlt, hbmBeq⟩ := to_bytes_ok_inv _ _ _ hbmB
  obtain ⟨hBVlt, hbvBeq⟩ := to_bytes_ok_inv _ _ _ hbvB
  obtain ⟨hBClt, hbcBeq⟩ := to_bytes_ok_inv _ _ _ hbcB
  obtain ⟨hfmlen, hfmread⟩ := serialize_u32s_ok_inv _ _ hfmB
  obtain ⟨hfvlen, hfvread⟩ := serialize_u32s_ok_inv _ _ hfvB
  obtain ⟨hfclen, hfcread⟩ := serialize_u32s_ok_inv _ _ hfcB
  have hmfreq : m.1 = build_freq_table (split_streams_v2 data).1 := compress_core_freq _ _ hm
  have hvfreq : v.1 = build_freq_table (split_streams_v2 data).2.1 := compress_core_freq _ _ hv
  have hcfreq : cc.1 = build_freq_table (split_streams_v2 data).2.2 :=
    compress_core_freq _ _ hcc
  have hm256 : m.1.length = 256 := by rw [hmfreq]; exact build_freq_table_length _
  have hv256 : v.1.length = 256 := by rw [hvfreq]; exact build_freq_table_length _
  have hc256 : cc.1.length = 256 := by rw [hcfreq]; exact build_freq_table_length _
  have hfmlen2 : fmB.length = 1024 := by rw [hfmlen, hm256]
  have hfvlen2 : fvB.length = 1024 := by rw [hfvlen, hv256]
  have hfclen2 : fcB.length = 1024 := by rw [hfclen, hc256]
  subst hnBeq
  subst hlvBeq
  subst hlcBeq
  subst hbmBeq
  subst hbvBeq
  subst hbcBeq
  subst hceq
  obtain ⟨hmasklen, hvclen⟩ := split_streams_v2_lengths data
  set E := MAGIC ++ [VERSION_STEP2] ++ toBytesAux 8 data.length ++
    toBytesAux 8 (split_streams_v2 data).2.1.length ++
    toBytesAux 8 (split_streams_v2 data).2.2.length ++
    fmB ++ [m.2.1] ++ toBytesAux 8 m.2.2.length ++
    fvB ++ [v.2.1] ++ toBytesAux 8 v.2.2.length ++
    fcB ++ [cc.2.1] ++ toBytesAux 8 cc.2.2.length ++
    m.2.2 ++ v.2.2 ++ cc.2.2 with hE
  have hElen : E.length = 3127 + (m.2.2.length + (v.2.2.length + cc.2.2.length)) := by
    rw [hE]
    simp only [List.length_append, List.length_cons, List.length_nil, toBytesAux_length,
      hfmlen2, hfvlen2, hfclen2]
    norm_num [MAGIC]
    omega
  have hEr : E = MAGIC ++ (VERSION_STEP2 :: (toBytesAux 8 data.length ++ (toBytesAux 8 (split_streams_v2 data).2.1.length ++ (toBytesAux 8 (split_streams_v2 data).2.2.length ++ (fmB ++ (m.2.1 :: (toBytesAux 8 m.2.2.length ++ (fvB ++ (v.2.1 :: (toBytesAux 8 v.2.2.length ++ (fcB ++ (cc.2.1 :: (toBytesAux 8 cc.2.2.length ++ (m.2.2 ++ (v.2.2 ++ (cc.2.2)))))))))))))))) := by
    rw [hE]
    simp [List.append_assoc]
  have hD3 : E.drop 3 = VERSION_STEP2 :: (toBytesAux 8 data.length ++ (toBytesAux 8 (split_streams_v2 data).2.1.length ++ (toBytesAux 8 (split_streams_v2 data).2.2.length ++ (fmB ++ (m.2.1 :: (toBytesAux 8 m.2.2.length ++ (fvB ++ (v.2.1 :: (toBytesAux 8 v.2.2.length ++ (fcB ++ (cc.2.1 :: (toBytesAux 8 cc.2.2.length ++ (m.2.2 ++ (v.2.2 ++ (cc.2.2))))))))))))))) := by
    rw [hEr]
    exact drop_len_append _ _ 3 rfl
  have hD4 : E.drop 4 = toBytesAux 8 data.length ++ (toBytesAux 8 (split_streams_v2 data).2.1.length ++ (toBytesAux 8 (split_streams_v2 data).2.2.length ++ (fmB ++ (m.2.1 :: (toBytesAux 8 m.2.2.length ++ (fvB ++ (v.2.1 :: (toBytesAux 8 v.2.2.length ++ (fcB ++ (cc.2.1 :: (toBytesAux 8 cc.2.2.length ++ (m.2.2 ++ (v.2.2 ++ (cc.2.2)))))))))))))) := by
    rw [show (4 : Nat) = 3 + 1 from rfl, ← List.drop_drop, hD3]
    rw [List.drop_one, List.tail_cons]
  have hD12 : E.drop 12 = toBytesAux 8 (split_streams_v2 data).2.1.length ++ (toBytesAux 8 (split_streams_v2 data).2.2.length ++ (fmB ++ (m.2.1 :: (toBytesAux 8 m.2.2.length ++ (fvB ++ (v.2.1 :: (toBytesAux 8 v.2.2.length ++ (fcB ++ (cc.2.1 :: (toBytesAux 8 cc.2.2.length ++ (m.2.2 ++ (v.2.2 ++ (cc.2.2))))))))))))) := by
    rw [show (12 : Nat) = 4 + 8 from rfl, ← List.drop_drop, hD4]
    exact drop_len_append _ _ 8 (toBytesAux_length 8 _)
  have hD20 : E.drop 20 = toBytesAux 8 (split_streams_v2 data).2.2.length ++ (fmB ++ (m.2.1 :: (toBytesAux 8 m.2.2.length ++ (fvB ++ (v.2.1 :: (toBytesAux 8 v.2.2.length ++ (fcB ++ (cc.2.1 :: (toBytesAux 8 cc.2.2.length ++ (m.2.2 ++ (v.2.2 ++ (cc.2.2)))))))))))) := by
    rw [show (20 : Nat) = 12 + 8 from rfl, ← List.drop_drop, hD12]
    exact drop_len_append _ _ 8 (toBytesAux_length 8 _)
  have hD28 : E.drop 28 = fmB ++ (m.2.1 :: (toBytesAux 8 m.2.2.length ++ (fvB ++ (v.2.1 :: (toBytesAux 8 v.2.2.length ++ (fcB ++ (cc.2.1 :: (toBytesAux 8 cc.2.2.length ++ (m.2.2 ++ (v.2.2 ++ (cc.2.2))))))))))) := by
    rw [show (28 : Nat) = 20 + 8 from rfl, ← List.drop_drop, hD20]
    exact drop_len_append _ _ 8 (toBytesAux_length 8 _)
  have hD1052 : E.drop 1052 = m.2.1 :: (toBytesAux 8 m.2.2.length ++ (fvB ++ (v.2.1 :: (toBytesAux 8 v.2.2.length ++ (fcB ++ (cc.2.1 :: (toBytesAux 8 cc.2.2.length ++ (m.2.2 ++ (v.2.2 ++ (cc.2.2)))))))))) := by
    rw [show (1052 : Nat) = 28 + 1024 from rfl, ← List.drop_drop, hD28]
    exact drop_len_append _ _ 1024 hfmlen2
  have hD1053 : E.drop 1053 = toBytesAux 8 m.2.2.length ++ (fvB ++ (v.2.1 :: (toBytesAux 8 v.2.2.length ++ (fcB ++ (cc.2.1 :: (toBytesAux 8 cc.2.2.length ++ (m.2.2 ++ (v.2.2 ++ (cc.2.2))))))))) := by
    rw [show (1053 : Nat) = 1052 + 1 from rfl, ← List.drop_drop, hD1052]
    rw [List.drop_one, List.tail_cons]
  have hD1061 : E.drop 1061 = fvB ++ (v.2.1 :: (toBytesAux 8 v.2.2.length ++ (fcB ++ (cc.2.1 :: (toBytesAux 8 cc.2.2.length ++ (m.2.2 ++ (v.2.2 ++ (cc.2.2)))))))) := by
    rw [show (1061 : Nat) = 1053 + 8 from rfl, ← List.drop_drop, hD1053]
    exact drop_len_append _ _ 8 (toBytesAux_length 8 _)
  have hD2085 : E.drop 2085 = v.2.1 :: (toBytesAux 8 v.2.2.length ++ (fcB ++ (cc.2.1 :: (toBytesAux 8 cc.2.2.length ++ (m.2.2 ++ (v.2.2 ++ (cc.2.2))))))) := by
    rw [show (2085 : Nat) = 1061 + 1024 from rfl, ← List.drop_drop, hD1061]
    exact drop_len_append _ _ 1024 hfvlen2
  have hD2086 : E.drop 2086 = toBytesAux 8 v.2.2.length ++ (fcB ++ (cc.2.1 :: (toBytesAux 8 cc.2.2.length ++ (m.2.2 ++ (v.2.2 ++ (cc.2.2)))))) := by
    rw [show (2086 : Nat) = 2085 + 1 from rfl, ← List.drop_drop, hD2085]
    rw [List.drop_one, List.tail_cons]
  have hD2094 : E.drop 2094 = fcB ++ (cc.2.1 :: (toBytesAux 8 cc.2.2.length ++ (m.2.2 ++ (v.2.2 ++ (cc.2.2))))) := by
    rw [show (2094 : Nat) = 2086 + 8 from rfl, ← List.drop_drop, hD2086]
    exact drop_len_append _ _ 8 (toBytesAux_length 8 _)
  have hD3118 : E.drop 3118 = cc.2.1 :: (toBytesAux 8 cc.2.2.length ++ (m.2.2 ++ (v.2.2 ++ (cc.2.2)))) := by
    rw [show (3118 : Nat) = 2094 + 1024 from rfl, ← List.drop_drop, hD2094]
    exact drop_len_append _ _ 1024 hfclen2
  have hD3119 : E.drop 3119 = toBytesAux 8 cc.2.2.length ++ (m.2.2 ++ (v.2.2 ++ (cc.2.2))) := by
    rw [show (3119 : Nat) = 3118 + 1 from rfl, ← List.drop_drop, hD3118]
    rw [List.drop_one, List.tail_cons]
  have hD3127 : E.drop 3127 = m.2.2 ++ (v.2.2 ++ (cc.2.2)) := by
    rw [show (3127 : Nat) = 3119 + 8 from rfl, ← List.drop_drop, hD3119]
    exact drop_len_append _ _ 8 (toBytesAux_length 8 _)

  have hN : from_bytes ((E.drop 4).take 8) = data.length := by
    rw [hD4, take_len_append _ _ 8 (toBytesAux_length 8 _)]
    exact from_bytes_toBytesAux 8 _ hNlt
  have hlenv : from_bytes ((E.drop 12).take 8) = (split_streams_v2 data).2.1.length := by
    rw [hD12, take_len_append _ _ 8 (toBytesAux_length 8 _)]
    exact from_bytes_toBytesAux 8 _ hVlt
  have hlenc : from_bytes ((E.drop 20).take 8) = (split_streams_v2 data).2.2.length := by
    rw [hD20, take_len_append _ _ 8 (toBytesAux_length 8 _)]
    exact from_bytes_toBytesAux 8 _ hClt
  have hfreqm : read_u32s 256 (E.drop 28) = m.1 := by
    rw [hD28, ← hm256]
    exact hfmread _
  have hlastm : readByte E 1052 = .ok m.2.1 := by
    unfold readByte
    rw [hD1052]
  have hbsizem : from_bytes ((E.drop 1053).take 8) = m.2.2.length := by
    rw [hD1053, take_len_append _ _ 8 (toBytesAux_length 8 _)]
    exact from_bytes_toBytesAux 8 _ hBMlt
  have hfreqv : read_u32s 256 (E.drop 1061) = v.1 := by
    rw [hD1061, ← hv256]
    exact hfvread _
  have hlastv : readByte E 2085 = .ok v.2.1 := by
    unfold readByte
    rw [hD2085]
  have hbsizev : from_bytes ((E.drop 2086).take 8) = v.2.2.length := by
    rw [hD2086, take_len_append _ _ 8 (toBytesAux_length 8 _)]
    exact from_bytes_toBytesAux 8 _ hBVlt
  have hfreqc : read_u32s 256 (E.drop 2094) = cc.1 := by
    rw [hD2094, ← hc256]
    exact hfcread _
  have hlastc : readByte E 3118 = .ok cc.2.1 := by
    unfold readByte
    rw [hD3118]
  have hbsizec : from_bytes ((E.drop 3119).take 8) = cc.2.2.length := by
    rw [hD3119, take_len_append _ _ 8 (toBytesAux_length 8 _)]
    exact from_bytes_toBytesAux 8 _ hBClt
  have hbsm : (E.drop 3127).take m.2.2.length = m.2.2 := by
    rw [hD3127]
    exact take_len_append _ _ _ rfl
  have hbsv : (E.drop (3127 + m.2.2.length)).take v.2.2.length = v.2.2 := by
    rw [← List.drop_drop, hD3127, drop_len_append _ _ _ rfl]
    exact take_len_append _ _ _ rfl
  have hbsc : (E.drop (3127 + m.2.2.length + v.2.2.length)).take cc.2.2.length = cc.2.2 := by
    rw [← List.drop_drop, ← List.drop_drop, hD3127, drop_len_append _ _ _ rfl,
      drop_len_append _ _ _ rfl]
    exact List.take_length cc.2.2
  have hdecm : huffman_decompress_core m.1 m.2.2 data.length m.2.1 =
      .ok (split_streams_v2 data).1 := by
    rw [← hmasklen]
    exact core_roundtrip _ (split_streams_v2_mask_bytes data) m.1 m.2.1 m.2.2 hm
  have hdecv : huffman_decompress_core v.1 v.2.2 (split_streams_v2 data).2.1.length v.2.1 =
      .ok (split_streams_v2 data).2.1 :=
    core_roundtrip _ (fun b hb => hbytes b (split_streams_v2_vowels_sub data b hb))
      v.1 v.2.1 v.2.2 hv
  have hdecc : huffman_decompress_core cc.1 cc.2.2 (split_streams_v2 data).2.2.length cc.2.1 =
      .ok (split_streams_v2 data).2.2 :=
    core_roundtrip _ (fun b hb => hbytes b (split_streams_v2_cons_sub data b hb))
      cc.1 cc.2.1 cc.2.2 hcc
  have hver : readByte E 3 = .ok VERSION_STEP2 := by
    unfold readByte
    rw [hD3]
  unfold decompress_bytes_v2
  rw [if_neg (by rw [hElen]; omega)]
  rw [if_neg (show ¬ (E.take 3 ≠ MAGIC) from ?hmg)]
  case hmg =>
    intro hne
    apply hne
    rw [hEr]
    exact take_len_append _ _ 3 rfl
  simp only [hver, except_bind_ok]
  rw [if_neg (by simp : ¬ VERSION_STEP2 ≠ VERSION_STEP2)]
  simp only [hN, hlenv, hlenc, hfreqm, hlastm, hbsizem, hfreqv, hlastv, hbsizev, hfreqc,
    hlastc, hbsizec, except_bind_ok, hbsm, hbsv, hbsc, hdecm, hdecv, hdecc]
  exact merge_split_v2 data

/-! ## Tokenizers: concatenation restores the input -/

theorem syllGo_join (w : List Nat) : ∀ cur, (syllGo w cur).flatten = cur ++ w := by
  induction w with
  | nil =>
      intro cur
      simp only [syllGo]
      by_cases hc : cur.isEmpty
      · rw [if_pos hc]
        rw [List.isEmpty_iff] at hc
        simp [hc]
      · rw [if_neg hc]
        simp
  | cons b rest ih =>
      intro cur
      simp only [syllGo]
      by_cases hv : is_vowel_byte b
      · rw [if_pos hv]
        simp only [List.flatten_cons, ih []]
        simp
      · rw [if_neg hv, ih (cur ++ [b])]
        simp

theorem split_word_join (w : List Nat) : (split_word_into_syllables w).flatten = w := by
  simpa using syllGo_join w []

theorem syllGo_ne_nil (w : List Nat) :
    ∀ cur t, t ∈ syllGo w cur → t ≠ [] := by
  induction w with
  | nil =>
      intro cur t ht
      simp only [syllGo] at ht
      by_cases hc : cur.isEmpty
      · rw [if_pos hc] at ht
        simp at ht
      · rw [if_neg hc] at ht
        rw [List.mem_singleton] at ht
        subst ht
        simpa [List.isEmpty_iff] using hc
  | cons b rest ih =>
      intro cur t ht
      simp only [syllGo] at ht
      by_cases hv : is_vowel_byte b
      · rw [if_pos hv] at ht
        rcases List.mem_cons.1 ht with h1 | h2
        · subst h1; simp
        · exact ih [] t h2
      · rw [if_neg hv] at ht
        exact ih (cur ++ [b]) t ht

theorem tokenizeSyllFuel_join : ∀ fuel data, data.length ≤ fuel →
    (tokenizeSyllFuel fuel data).flatten = data := by
  intro fuel
  induction fuel with
  | zero =>
      intro data hlen
      cases data with
      | nil => rfl
      | cons b rest => simp at hlen
  | succ n ih =>
      intro data hlen
      cases data with
      | nil => rfl
      | cons b rest =>
          simp only [tokenizeSyllFuel]
          have hdrople : ∀ p : Nat → Bool, (rest.dropWhile p).length ≤ n := by
            intro p
            have h1 := (List.dropWhile_sublist p (l := rest)).length_le
            simp only [List.length_cons] at hlen
            omega
          by_cases hl : is_ascii_letter b
          · rw [if_pos hl]
            rw [List.flatten_append, split_word_join, ih _ (hdrople _)]
            simp [List.takeWhile_append_dropWhile]
          · rw [if_neg hl]
            rw [List.flatten_cons, ih _ (hdrople _)]
            simp [List.takeWhile_append_dropWhile]

theorem tokenize_syllables_join (data : List Nat) :
    (tokenize_syllables_and_other data).flatten = data :=
  tokenizeSyllFuel_join data.length data (Nat.le_refl _)

theorem tokenizeWordsFuel_join : ∀ fuel data, data.length ≤ fuel →
    (tokenizeWordsFuel fuel data).flatten = data := by
  intro fuel
  induction fuel with
  | zero =>
      intro data hlen
      cases data with
      | nil => rfl
      | cons b rest => simp at hlen
  | succ n ih =>
      intro data hlen
      cases data with
      | nil => rfl
      | cons b rest =>
          simp only [tokenizeWordsFuel]
          have hdrople : ∀ p : Nat → Bool, (rest.dropWhile p).length ≤ n := by
            intro p
            have h1 := (List.dropWhile_sublist p (l := rest)).length_le
            simp only [List.length_cons] at hlen
            omega
          by_cases hl : is_ascii_letter b
          · rw [if_pos hl]
            rw [List.flatten_cons, ih _ (hdrople _)]
            simp [List.takeWhile_append_dropWhile]
          · rw [if_neg hl]
            rw [List.flatten_cons, ih _ (hdrople _)]
            simp [List.takeWhile_append_dropWhile]

theorem tokenize_words_join (data : List Nat) :
    (tokenize_words_and_other data).flatten = data :=
  tokenizeWordsFuel_join data.length data (Nat.le_refl _)

theorem tokenizeSyllFuel_ne_nil : ∀ fuel data, ∀ t ∈ tokenizeSyllFuel fuel data, t ≠ [] := by
  intro fuel
  induction fuel with
  | zero =>
      intro data t ht
      cases data with
      | nil => simp [tokenizeSyllFuel] at ht
      | cons b rest => simp [tokenizeSyllFuel] at ht
  | succ n ih =>
      intro data t ht
      cases data with
      | nil => simp [tokenizeSyllFuel] at ht
      | cons b rest =>
          simp only [tokenizeSyllFuel] at ht
          by_cases hl : is_ascii_letter b
          · rw [if_pos hl] at ht
            rcases List.mem_append.1 ht with h1 | h2
            · exact syllGo_ne_nil _ [] t h1
            · exact ih _ t h2
          · rw [if_neg hl] at ht
            rcases List.mem_cons.1 ht with h1 | h2
            · subst h1; simp
            · exact ih _ t h2

theorem tokenizeWordsFuel_ne_nil : ∀ fuel data, ∀ t ∈ tokenizeWordsFuel fuel data, t ≠ [] := by
  intro fuel
  induction fuel with
  | zero =>
      intro data t ht
      cases data with
      | nil => simp [tokenizeWordsFuel] at ht
      | cons b rest => simp [tokenizeWordsFuel] at ht
  | succ n ih =>
      intro data t ht
      cases data with
      | nil => simp [tokenizeWordsFuel] at ht
      | cons b rest =>
          simp only [tokenizeWordsFuel] at ht
          by_cases hl : is_ascii_letter b
          · rw [if_pos hl] at ht
            rcases List.mem_cons.1 ht with h1 | h2
            · subst h1; simp
            · exact ih _ t h2
          · rw [if_neg hl] at ht
            rcases List.mem_cons.1 ht with h1 | h2
            · subst h1; simp
            · exact ih _ t h2

theorem length_le_join_length (ts : List (List Nat)) (h : ∀ t ∈ ts, t ≠ []) :
    ts.length ≤ ts.flatten.length := by
  induction ts with
  | nil => simp
  | cons t rest ih =>
      have ht := h t (by simp)
      have h1 : 1 ≤ t.length := by
        cases t with
        | nil => exact absurd rfl ht
        | cons a as => simp
      have := ih (fun x hx => h x (List.mem_cons_of_mem _ hx))
      simp only [List.flatten_cons, List.length_append, List.length_cons]
      omega

/-! ## Vocabulary -/

theorem buildVocab_foldl_mem (tokens : List (List Nat)) :
    ∀ init t, t ∈ tokens ∨ t ∈ init →
      t ∈ tokens.foldl (fun vl tok => if vl.contains tok then vl else vl ++ [tok]) init := by
  induction tokens with
  | nil =>
      intro init t ht
      simpa using ht.resolve_left (by simp)
  | cons tok rest ih =>
      intro init t ht
      simp only [List.foldl_cons]
      by_cases hc : init.contains tok
      · rw [if_pos hc]
        apply ih
        rcases ht with h1 | h2
        · rcases List.mem_cons.1 h1 with h3 | h4
          · subst h3
            right
            exact List.elem_iff.1 hc
          · left; exact h4
        · right; exact h2
      · rw [if_neg hc]
        apply ih
        rcases ht with h1 | h2
        · rcases List.mem_cons.1 h1 with h3 | h4
          · subst h3
            right
            simp
          · left; exact h4
        · right
          simp [h2]

theorem mem_buildVocab (tokens : List (List Nat)) (t : List Nat) (h : t ∈ tokens) :
    t ∈ buildVocab tokens :=
  buildVocab_foldl_mem tokens [] t (Or.inl h)

theorem indexOf_spec (t : List Nat) :
    ∀ vl : List (List Nat), t ∈ vl →
      vl.indexOf t < vl.length ∧ vl.get? (vl.indexOf t) = some t := by
  intro vl
  induction vl with
  | nil => intro h; simp at h
  | cons x xs ih =>
      intro h
      unfold List.indexOf
      rw [List.findIdx_cons]
      by_cases hx : x == t
      · rw [hx]
        simp only [cond_true]
        refine ⟨by simp, ?_⟩
        have : x = t := eq_of_beq hx
        simp [this]
      · rw [Bool.eq_false_iff.2 hx]
        simp only [cond_false]
        have hmem : t ∈ xs := by
          rcases List.mem_cons.1 h with h1 | h2
          · exfalso
            apply hx
            rw [h1]
            exact beq_self_eq_true x
          · exact h2
        obtain ⟨ih1, ih2⟩ := ih hmem
        unfold List.indexOf at ih1 ih2
        constructor
        · simp only [List.length_cons]
          omega
        · simpa using ih2

theorem idOf_lt (vl : List (List Nat)) (t : List Nat) (h : t ∈ vl) :
    idOf vl t < vl.length :=
  (indexOf_spec t vl h).1

theorem get?_idOf (vl : List (List Nat)) (t : List Nat) (h : t ∈ vl) :
    vl.get? (idOf vl t) = some t :=
  (indexOf_spec t vl h).2

theorem reconstruct_map_idOf (vl : List (List Nat)) :
    ∀ tokens : List (List Nat), (∀ t ∈ tokens, vl.get? (vl.indexOf t) = some t) →
      reconstruct vl (tokens.map (idOf vl)) = .ok tokens.flatten := by
  intro tokens
  induction tokens with
  | nil => intro _; rfl
  | cons t rest ih =>
      intro h
      simp only [List.map_cons]
      unfold reconstruct
      rw [show idOf vl t = vl.indexOf t from rfl, h t (by simp)]
      show (do
        let r ← reconstruct vl (rest.map (idOf vl))
        Except.ok (t ++ r)) = Except.ok ((t :: rest).flatten)
      rw [ih (fun x hx => h x (List.mem_cons_of_mem _ hx))]
      rfl

theorem buildVocab_foldl_sub (tokens : List (List Nat)) :
    ∀ init t,
      t ∈ tokens.foldl (fun vl tok => if vl.contains tok then vl else vl ++ [tok]) init →
      t ∈ tokens ∨ t ∈ init := by
  induction tokens with
  | nil => intro init t ht; right; simpa using ht
  | cons tok rest ih =>
      intro init t ht
      simp only [List.foldl_cons] at ht
      by_cases hc : init.contains tok
      · rw [if_pos hc] at ht
        rcases ih init t ht with h1 | h2
        · left; exact List.mem_cons_of_mem _ h1
        · right; exact h2
      · rw [if_neg hc] at ht
        rcases ih (init ++ [tok]) t ht with h1 | h2
        · left; exact List.mem_cons_of_mem _ h1
        · rcases List.mem_append.1 h2 with h3 | h4
          · right; exact h3
          · left
            rw [List.mem_singleton] at h4
            subst h4
            simp

theorem buildVocab_sub (tokens : List (List Nat)) (t : List Nat)
    (h : t ∈ buildVocab tokens) : t ∈ tokens := by
  rcases buildVocab_foldl_sub tokens [] t h with h1 | h2
  · exact h1
  · simp at h2

theorem serialize_vocab_isOk (vl : List (List Nat)) (h : ∀ t ∈ vl, t.length ≤ 0xFFFF) :
    ∃ bs, serialize_vocab vl = .ok bs := by
  induction vl with
  | nil => exact ⟨[], rfl⟩
  | cons tok rest ih =>
      obtain ⟨bs', hbs'⟩ := ih (fun t ht => h t (List.mem_cons_of_mem _ ht))
      have htok := h tok (by simp)
      refine ⟨toBytesAux 2 tok.length ++ tok ++ bs', ?_⟩
      simp only [serialize_vocab]
      rw [if_neg (by omega)]
      rw [to_bytes_ok 2 tok.length (by norm_num at htok ⊢; omega), except_bind_ok, hbs',
        except_bind_ok]

theorem serialize_vocab_ok_inv (vl : List (List Nat)) :
    ∀ bs, serialize_vocab vl = .ok bs →
      ∀ tail, parse_vocab vl.length (bs ++ tail) = .ok (vl, tail) := by
  induction vl with
  | nil =>
      intro bs h tail
      have h2 : (Except.ok [] : Except String (List Nat)) = .ok bs := h
      injection h2 with hb
      subst hb
      rfl
  | cons tok rest ih =>
      intro bs h tail
      simp only [serialize_vocab] at h
      split at h
      · cases h
      · next hlen =>
        obtain ⟨lB, hlB, h⟩ := except_bind_ok_inv _ _ _ h
        obtain ⟨bs', hbs', h⟩ := except_bind_ok_inv _ _ _ h
        injection h with hb
        subst hb
        obtain ⟨hlt, hlBeq⟩ := to_bytes_ok_inv _ _ _ hlB
        subst hlBeq
        have hassoc : (toBytesAux 2 tok.length ++ tok ++ bs') ++ tail =
            toBytesAux 2 tok.length ++ (tok ++ (bs' ++ tail)) := by
          simp [List.append_assoc]
        have htake2 : ((toBytesAux 2 tok.length ++ tok ++ bs') ++ tail).take 2 =
            toBytesAux 2 tok.length := by
          rw [hassoc]
          exact take_len_append _ _ 2 (toBytesAux_length 2 _)
        have hdrop2 : ((toBytesAux 2 tok.length ++ tok ++ bs') ++ tail).drop 2 =
            tok ++ (bs' ++ tail) := by
          rw [hassoc]
          exact drop_len_append _ _ 2 (toBytesAux_length 2 _)
        have hlenge : 2 ≤ ((toBytesAux 2 tok.length ++ tok ++ bs') ++ tail).length := by
          simp [toBytesAux_length]
        simp only [List.length_cons, parse_vocab]
        rw [if_neg (by omega)]
        simp only [htake2, hdrop2, from_bytes_toBytesAux 2 tok.length hlt]
        rw [if_neg (by simp : ¬ (tok ++ (bs' ++ tail)).length < tok.length)]
        rw [take_len_append tok (bs' ++ tail) tok.length rfl,
          drop_len_append tok (bs' ++ tail) tok.length rfl]
        rw [ih bs' hbs' tail, except_bind_ok]

/-! ## Formats 3 and 4 -/

theorem compress_v3_eq (data : List Nat) :
    compress_bytes_v3 data =
      (if 256 < (buildVocab (tokenize_syllables_and_other data)).length then
        Except.error "VOCAB troppo grande per v3"
      else do
        let flb ← huffman_compress_core ((tokenize_syllables_and_other data).map
          (idOf (buildVocab (tokenize_syllables_and_other data))))
        let nB ← to_bytes 8 (tokenize_syllables_and_other data).length
        let vsB ← to_bytes 2 (buildVocab (tokenize_syllables_and_other data)).length
        let vB ← serialize_vocab (buildVocab (tokenize_syllables_and_other data))
        let fB ← serialize_u32s flb.1
        Except.ok (MAGIC ++ [VERSION_STEP3] ++ nB ++ vsB ++ vB ++ fB ++
          [flb.2.1] ++ flb.2.2)) := rfl

theorem compress_v4_eq (data : List Nat) :
    compress_bytes_v4 data =
      (if 256 < (buildVocab (tokenize_words_and_other data)).length then
        Except.error "VOCAB troppo grande per v4"
      else do
        let flb ← huffman_compress_core ((tokenize_words_and_other data).map
          (idOf (buildVocab (tokenize_words_and_other data))))
        let nB ← to_bytes 8 (tokenize_words_and_other data).length
        let vsB ← to_bytes 2 (buildVocab (tokenize_words_and_other data)).length
        let vB ← serialize_vocab (buildVocab (tokenize_words_and_other data))
        let fB ← serialize_u32s flb.1
        Except.ok (MAGIC ++ [VERSION_STEP4] ++ nB ++ vsB ++ vB ++ fB ++
          [flb.2.1] ++ flb.2.2)) := rfl

theorem ids_lt_256 (tokens : List (List Nat)) (hvocab : (buildVocab tokens).length ≤ 256) :
    ∀ b ∈ tokens.map (idOf (buildVocab tokens)), b < 256 := by
  intro b hb
  obtain ⟨t, ht, hbt⟩ := List.mem_map.1 hb
  subst hbt
  have := idOf_lt (buildVocab tokens) t (mem_buildVocab tokens t ht)
  omega

/-- `compress_bytes_v3` succeeds whenever the vocabulary fits in a byte, every
token fits the 2-byte length field and the token count fits the count fields. -/
theorem compress_v3_isOk (data : List Nat)
    (hvocab : (buildVocab (tokenize_syllables_and_other data)).length ≤ 256)
    (htok : ∀ t ∈ tokenize_syllables_and_other data, t.length ≤ 0xFFFF)
    (hcount : (tokenize_syllables_and_other data).length < 2 ^ 32) :
    ∃ c, compress_bytes_v3 data = .ok c := by
  rw [compress_v3_eq]
  rw [if_neg (by omega)]
  obtain ⟨freq, lastbits, bitstream, hcore, hfreqeq⟩ :=
    core_compress_isOk _ (ids_lt_256 _ hvocab)
  rw [hcore, except_bind_ok]
  rw [to_bytes_ok 8 _ (by
    calc (tokenize_syllables_and_other data).length < 2 ^ 32 := hcount
    _ < 256 ^ 8 := by norm_num), except_bind_ok]
  rw [to_bytes_ok 2 _ (by norm_num; omega), except_bind_ok]
  obtain ⟨vB, hvB⟩ := serialize_vocab_isOk _
    (fun t ht => htok t (buildVocab_sub _ t ht))
  rw [hvB, except_bind_ok]
  have hfbound : ∀ f ∈ freq, f < 2 ^ 32 := by
    rw [hfreqeq]
    apply freq_entries_lt _ (ids_lt_256 _ hvocab)
    rw [List.length_map]
    exact hcount
  obtain ⟨fB, hfB, _, _⟩ := serialize_u32s_ok freq hfbound
  rw [hfB, except_bind_ok]
  exact ⟨_, rfl⟩

theorem compress_v4_isOk (data : List Nat)
    (hvocab : (buildVocab (tokenize_words_and_other data)).length ≤ 256)
    (htok : ∀ t ∈ tokenize_words_and_other data, t.length ≤ 0xFFFF)
    (hcount : (tokenize_words_and_other data).length < 2 ^ 32) :
    ∃ c, compress_bytes_v4 data = .ok c := by
  rw [compress_v4_eq]
  rw [if_neg (by omega)]
  obtain ⟨freq, lastbits, bitstream, hcore, hfreqeq⟩ :=
    core_compress_isOk _ (ids_lt_256 _ hvocab)
  rw [hcore, except_bind_ok]
  rw [to_bytes_ok 8 _ (by
    calc (tokenize_words_and_other data).length < 2 ^ 32 := hcount
    _ < 256 ^ 8 := by norm_num), except_bind_ok]
  rw [to_bytes_ok 2 _ (by norm_num; omega), except_bind_ok]
  obtain ⟨vB, hvB⟩ := serialize_vocab_isOk _
    (fun t ht => htok t (buildVocab_sub _ t ht))
  rw [hvB, except_bind_ok]
  have hfbound : ∀ f ∈ freq, f < 2 ^ 32 := by
    rw [hfreqeq]
    apply freq_entries_lt _ (ids_lt_256 _ hvocab)
    rw [List.length_map]
    exact hcount
  obtain ⟨fB, hfB, _, _⟩ := serialize_u32s_ok freq hfbound
  rw [hfB, except_bind_ok]
  exact ⟨_, rfl⟩

/-- Format-3 round trip: the container written by `compress_bytes_v3` parses
back to the vocabulary and id stream, the ids decode to themselves, and
concatenating the named vocabulary entries restores the input. -/
theorem roundtrip_v3 (data : List Nat) (c : List Nat)
    (hcomp : compress_bytes_v3 data = .ok c) : decompress_bytes_v3 c = .ok data := by
  rw [compress_v3_eq] at hcomp
  split at hcomp
  · cases hcomp
  · next hvocab =>
    obtain ⟨flb, hcore, hcomp⟩ := except_bind_ok_inv _ _ _ hcomp
    obtain ⟨nB, hnB, hcomp⟩ := except_bind_ok_inv _ _ _ hcomp
    obtain ⟨vsB, hvsB, hcomp⟩ := except_bind_ok_inv _ _ _ hcomp
    obtain ⟨vB, hvB, hcomp⟩ := except_bind_ok_inv _ _ _ hcomp
    obtain ⟨fB, hfB, hcomp⟩ := except_bind_ok_inv _ _ _ hcomp
    injection hcomp with hceq
    obtain ⟨hNlt, hnBeq⟩ := to_bytes_ok_inv _ _ _ hnB
    obtain ⟨hVSlt, hvsBeq⟩ := to_bytes_ok_inv _ _ _ hvsB
    obtain ⟨hfBlen, hfBread⟩ := serialize_u32s_ok_inv _ _ hfB
    have hfreq : flb.1 = build_freq_table ((tokenize_syllables_and_other data).map
        (idOf (buildVocab (tokenize_syllables_and_other data)))) :=
      compress_core_freq _ _ hcore
    have hf256 : flb.1.length = 256 := by rw [hfreq]; exact build_freq_table_length _
    have hfBlen2 : fB.length = 1024 := by rw [hfBlen, hf256]
    subst hnBeq
    subst hvsBeq
    subst hceq
    set E3 := MAGIC ++ [VERSION_STEP3] ++
      toBytesAux 8 (tokenize_syllables_and_other data).length ++
      toBytesAux 2 (buildVocab (tokenize_syllables_and_other data)).length ++
      vB ++ fB ++ [flb.2.1] ++ flb.2.2 with hE3
    have hEr : E3 = MAGIC ++ (VERSION_STEP3 ::
        (toBytesAux 8 (tokenize_syllables_and_other data).length ++
          (toBytesAux 2 (buildVocab (tokenize_syllables_and_other data)).length ++
            (vB ++ (fB ++ (flb.2.1 :: flb.2.2)))))) := by
      rw [hE3]
      simp [List.append_assoc]
    have hElen : 14 ≤ E3.length := by
      rw [hEr]
      simp [toBytesAux_length, MAGIC]
      omega
    have hD3 : E3.drop 3 = VERSION_STEP3 ::
        (toBytesAux 8 (tokenize_syllables_and_other data).length ++
          (toBytesAux 2 (buildVocab (tokenize_syllables_and_other data)).length ++
            (vB ++ (fB ++ (flb.2.1 :: flb.2.2))))) := by
      rw [hEr]
      exact drop_len_append _ _ 3 rfl
    have hD4 : E3.drop 4 = toBytesAux 8 (tokenize_syllables_and_other data).length ++
          (toBytesAux 2 (buildVocab (tokenize_syllables_and_other data)).length ++
            (vB ++ (fB ++ (flb.2.1 :: flb.2.2)))) := by
      rw [show (4 : Nat) = 3 + 1 from rfl, ← List.drop_drop, hD3, List.drop_one,
        List.tail_cons]
    have hD12 : E3.drop 12 = toBytesAux 2 (buildVocab (tokenize_syllables_and_other data)).length ++
            (vB ++ (fB ++ (flb.2.1 :: flb.2.2))) := by
      rw [show (12 : Nat) = 4 + 8 from rfl, ← List.drop_drop, hD4,
        drop_len_append _ _ 8 (toBytesAux_length 8 _)]
    have hD14 : E3.drop 14 = vB ++ (fB ++ (flb.2.1 :: flb.2.2)) := by
      rw [show (14 : Nat) = 12 + 2 from rfl, ← List.drop_drop, hD12,
        drop_len_append _ _ 2 (toBytesAux_length 2 _)]
    have hver : readByte E3 3 = .ok VERSION_STEP3 := by
      unfold readByte
      rw [hD3]
    have hN : from_bytes ((E3.drop 4).take 8) = (tokenize_syllables_and_other data).length := by
      rw [hD4, take_len_append _ _ 8 (toBytesAux_length 8 _)]
      exact from_bytes_toBytesAux 8 _ hNlt
    have hVS : from_bytes ((E3.drop 12).take 2) =
        (buildVocab (tokenize_syllables_and_other data)).length := by
      rw [hD12, take_len_append _ _ 2 (toBytesAux_length 2 _)]
      exact from_bytes_toBytesAux 2 _ hVSlt
    have hparse : parse_vocab (buildVocab (tokenize_syllables_and_other data)).length
        (E3.drop 14) = .ok (buildVocab (tokenize_syllables_and_other data),
          fB ++ (flb.2.1 :: flb.2.2)) := by
      rw [hD14]
      exact serialize_vocab_ok_inv _ vB hvB _
    have hrestlen : ¬ (fB ++ (flb.2.1 :: flb.2.2)).length < 256 * 4 + 1 := by
      simp [List.length_append, hfBlen2]
      omega
    have hfreqparse : read_u32s 256 (fB ++ (flb.2.1 :: flb.2.2)) = flb.1 := by
      rw [← hf256]
      exact hfBread _
    have hlast : readByte (fB ++ (flb.2.1 :: flb.2.2)) 1024 = .ok flb.2.1 :=
      readByte_at fB flb.2.1 flb.2.2 1024 hfBlen2
    have hdrop1025 : (fB ++ (flb.2.1 :: flb.2.2)).drop 1025 = flb.2.2 := by
      rw [show fB ++ (flb.2.1 :: flb.2.2) = (fB ++ [flb.2.1]) ++ flb.2.2 from by
        simp [List.append_assoc]]
      refine drop_len_append _ _ 1025 ?_
      simp [hfBlen2]
    have hdec : huffman_decompress_core flb.1 flb.2.2
        (tokenize_syllables_and_other data).length flb.2.1 =
        .ok ((tokenize_syllables_and_other data).map
          (idOf (buildVocab (tokenize_syllables_and_other data)))) := by
      rw [show (tokenize_syllables_and_other data).length =
        ((tokenize_syllables_and_other data).map
          (idOf (buildVocab (tokenize_syllables_and_other data)))).length from
        (List.length_map _ _).symm]
      exact core_roundtrip _ (ids_lt_256 _ (by omega)) flb.1 flb.2.1 flb.2.2 hcore
    have hrecon : reconstruct (buildVocab (tokenize_syllables_and_other data))
        ((tokenize_syllables_and_other data).map
          (idOf (buildVocab (tokenize_syllables_and_other data)))) = .ok data := by
      rw [reconstruct_map_idOf _ _ (fun t ht => get?_idOf _ t (mem_buildVocab _ t ht))]
      rw [tokenize_syllables_join]
    unfold decompress_bytes_v3
    rw [if_neg (by omega)]
    rw [if_neg (show ¬ (E3.take 3 ≠ MAGIC) from ?hmg)]
    case hmg =>
      intro hne
      apply hne
      rw [hEr]
      exact take_len_append _ _ 3 rfl
    simp only [hver, except_bind_ok]
    rw [if_neg (by simp : ¬ VERSION_STEP3 ≠ VERSION_STEP3)]
    simp only [hN, hVS, hparse, except_bind_ok]
    rw [if_neg hrestlen]
    simp only [hfreqparse, hlast, hdrop1025, except_bind_ok, hdec, hrecon]


/-- Format-4 round trip: the container written by `compress_bytes_v4` parses
back to the vocabulary and id stream, the ids decode to themselves, and
concatenating the named vocabulary entries restores the input. -/
theorem roundtrip_v4 (data : List Nat) (c : List Nat)
    (hcomp : compress_bytes_v4 data = .ok c) : decompress_bytes_v4 c = .ok data := by
  rw [compress_v4_eq] at hcomp
  split at hcomp
  · cases hcomp
  · next hvocab =>
    obtain ⟨flb, hcore, hcomp⟩ := except_bind_ok_inv _ _ _ hcomp
    obtain ⟨nB, hnB, hcomp⟩ := except_bind_ok_inv _ _ _ hcomp
    obtain ⟨vsB, hvsB, hcomp⟩ := except_bind_ok_inv _ _ _ hcomp
    obtain ⟨vB, hvB, hcomp⟩ := except_bind_ok_inv _ _ _ hcomp
    obtain ⟨fB, hfB, hcomp⟩ := except_bind_ok_inv _ _ _ hcomp
    injection hcomp with hceq
    obtain ⟨hNlt, hnBeq⟩ := to_bytes_ok_inv _ _ _ hnB
    obtain ⟨hVSlt, hvsBeq⟩ := to_bytes_ok_inv _ _ _ hvsB
    obtain ⟨hfBlen, hfBread⟩ := serialize_u32s_ok_inv _ _ hfB
    have hfreq : flb.1 = build_freq_table ((tokenize_words_and_other data).map
        (idOf (buildVocab (tokenize_words_and_other data)))) :=
      compress_core_freq _ _ hcore
    have hf256 : flb.1.length = 256 := by rw [hfreq]; exact build_freq_table_length _
    have hfBlen2 : fB.length = 1024 := by rw [hfBlen, hf256]
    subst hnBeq
    subst hvsBeq
    subst hceq
    set E4 := MAGIC ++ [VERSION_STEP4] ++
      toBytesAux 8 (tokenize_words_and_other data).length ++
      toBytesAux 2 (buildVocab (tokenize_words_and_other data)).length ++
      vB ++ fB ++ [flb.2.1] ++ flb.2.2 with hE4
    have hEr : E4 = MAGIC ++ (VERSION_STEP4 ::
        (toBytesAux 8 (tokenize_words_and_other data).length ++
          (toBytesAux 2 (buildVocab (tokenize_words_and_other data)).length ++
            (vB ++ (fB ++ (flb.2.1 :: flb.2.2)))))) := by
      rw [hE4]
      simp [List.append_assoc]
    have hElen : 14 ≤ E4.length := by
      rw [hEr]
      simp [toBytesAux_length, MAGIC]
      omega
    have hD3 : E4.drop 3 = VERSION_STEP4 ::
        (toBytesAux 8 (tokenize_words_and_other data).length ++
          (toBytesAux 2 (buildVocab (tokenize_words_and_other data)).length ++
            (vB ++ (fB ++ (flb.2.1 :: flb.2.2))))) := by
      rw [hEr]
      exact drop_len_append _ _ 3 rfl
    have hD4 : E4.drop 4 = toBytesAux 8 (tokenize_words_and_other data).length ++
          (toBytesAux 2 (buildVocab (tokenize_words_and_other data)).length ++
            (vB ++ (fB ++ (flb.2.1 :: flb.2.2)))) := by
      rw [show (4 : Nat) = 3 + 1 from rfl, ← List.drop_drop, hD3, List.drop_one,
        List.tail_cons]
    have hD12 : E4.drop 12 = toBytesAux 2 (buildVocab (tokenize_words_and_other data)).length ++
            (vB ++ (fB ++ (flb.2.1 :: flb.2.2))) := by
      rw [show (12 : Nat) = 4 + 8 from rfl, ← List.drop_drop, hD4,
        drop_len_append _ _ 8 (toBytesAux_length 8 _)]
    have hD14 : E4.drop 14 = vB ++ (fB ++ (flb.2.1 :: flb.2.2)) := by
      rw [show (14 : Nat) = 12 + 2 from rfl, ← List.drop_drop, hD12,
        drop_len_append _ _ 2 (toBytesAux_length 2 _)]
    have hver : readByte E4 3 = .ok VERSION_STEP4 := by
      unfold readByte
      rw [hD3]
    have hN : from_bytes ((E4.drop 4).take 8) = (tokenize_words_and_other data).length := by
      rw [hD4, take_len_append _ _ 8 (toBytesAux_length 8 _)]
      exact from_bytes_toBytesAux 8 _ hNlt
    have hVS : from_bytes ((E4.drop 12).take 2) =
        (buildVocab (tokenize_words_and_other data)).length := by
      rw [hD12, take_len_append _ _ 2 (toBytesAux_length 2 _)]
      exact from_bytes_toBytesAux 2 _ hVSlt
    have hparse : parse_vocab (buildVocab (tokenize_words_and_other data)).length
        (E4.drop 14) = .ok (buildVocab (tokenize_words_and_other data),
          fB ++ (flb.2.1 :: flb.2.2)) := by
      rw [hD14]
      exact serialize_vocab_ok_inv _ vB hvB _
    have hrestlen : ¬ (fB ++ (flb.2.1 :: flb.2.2)).length < 256 * 4 + 1 := by
      simp [List.length_append, hfBlen2]
      omega
    have hfreqparse : read_u32s 256 (fB ++ (flb.2.1 :: flb.2.2)) = flb.1 := by
      rw [← hf256]
      exact hfBread _
    have hlast : readByte (fB ++ (flb.2.1 :: flb.2.2)) 1024 = .ok flb.2.1 :=
      readByte_at fB flb.2.1 flb.2.2 1024 hfBlen2
    have hdrop1025 : (fB ++ (flb.2.1 :: flb.2.2)).drop 1025 = flb.2.2 := by
      rw [show fB ++ (flb.2.1 :: flb.2.2) = (fB ++ [flb.2.1]) ++ flb.2.2 from by
        simp [List.append_assoc]]
      refine drop_len_append _ _ 1025 ?_
      simp [hfBlen2]
    have hdec : huffman_decompress_core flb.1 flb.2.2
        (tokenize_words_and_other data).length flb.2.1 =
        .ok ((tokenize_words_and_other data).map
          (idOf (buildVocab (tokenize_words_and_other data)))) := by
      rw [show (tokenize_words_and_other data).length =
        ((tokenize_words_and_other data).map
          (idOf (buildVocab (tokenize_words_and_other data)))).length from
        (List.length_map _ _).symm]
      exact core_roundtrip _ (ids_lt_256 _ (by omega)) flb.1 flb.2.1 flb.2.2 hcore
    have hrecon : reconstruct (buildVocab (tokenize_words_and_other data))
        ((tokenize_words_and_other data).map
          (idOf (buildVocab (tokenize_words_and_other data)))) = .ok data := by
      rw [reconstruct_map_idOf _ _ (fun t ht => get?_idOf _ t (mem_buildVocab _ t ht))]
      rw [tokenize_words_join]
    unfold decompress_bytes_v4
    rw [if_neg (by omega)]
    rw [if_neg (show ¬ (E4.take 3 ≠ MAGIC) from ?hmg)]
    case hmg =>
      intro hne
      apply hne
      rw [hEr]
      exact take_len_append _ _ 3 rfl
    simp only [hver, except_bind_ok]
    rw [if_neg (by simp : ¬ VERSION_STEP4 ≠ VERSION_STEP4)]
    simp only [hN, hVS, hparse, except_bind_ok]
    rw [if_neg hrestlen]
    simp only [hfreqparse, hlast, hdrop1025, except_bind_ok, hdec, hrecon]



/-! ## Token counts, error propagation, and the single-symbol table -/

theorem tokenize_syllables_count_le (data : List Nat) :
    (tokenize_syllables_and_other data).length ≤ data.length := by
  have h := length_le_join_length (tokenize_syllables_and_other data)
    (fun t ht => tokenizeSyllFuel_ne_nil data.length data t ht)
  rwa [tokenize_syllables_join] at h

theorem tokenize_words_count_le (data : List Nat) :
    (tokenize_words_and_other data).length ≤ data.length := by
  have h := length_le_join_length (tokenize_words_and_other data)
    (fun t ht => tokenizeWordsFuel_ne_nil data.length data t ht)
  rwa [tokenize_words_join] at h

theorem except_bind_error {α β : Type} (e : String) (f : α → Except String β) :
    ((Except.error e : Except String α) >>= f) = Except.error e := rfl

theorem except_map_error {α β : Type} (e : String) (f : α → β) :
    Except.map f (Except.error e : Except String α) = Except.error e := rfl

theorem enumFrom_filter_none (l : List Nat) : ∀ (k : Nat),
    (∀ j, j < l.length → l.getD j 0 = 0) →
    (l.enumFrom k).filter (fun p => decide (0 < p.2)) = [] := by
  induction l with
  | nil => intro k _; rfl
  | cons x xs ih =>
      intro k h
      have h0 : x = 0 := h 0 (by simp)
      subst h0
      show List.filter _ ((k, 0) :: xs.enumFrom (k + 1)) = []
      rw [List.filter_cons, if_neg (by simp)]
      exact ih (k + 1) (fun j hj => h (j + 1) (by simp only [List.length_cons]; omega))

theorem enumFrom_filter_single (l : List Nat) : ∀ (k s c : Nat),
    k ≤ s → s < k + l.length → 0 < c →
    (∀ j, j < l.length → (k + j = s → l.getD j 0 = c) ∧ (k + j ≠ s → l.getD j 0 = 0)) →
    (l.enumFrom k).filter (fun p => decide (0 < p.2)) = [(s, c)] := by
  induction l with
  | nil =>
      intro k s c hks hsl _ _
      simp only [List.length_nil] at hsl
      omega
  | cons x xs ih =>
      intro k s c hks hsl hc h
      show List.filter _ ((k, x) :: xs.enumFrom (k + 1)) = [(s, c)]
      rw [List.filter_cons]
      by_cases hk : k = s
      · subst hk
        have hx : x = c := (h 0 (by simp)).1 (by omega)
        subst hx
        rw [if_pos (by simpa using hc)]
        rw [enumFrom_filter_none xs (k + 1)
          (fun j hj => (h (j + 1) (by simp only [List.length_cons]; omega)).2 (by omega))]
      · have hx : x = 0 := (h 0 (by simp)).2 (by omega)
        subst hx
        rw [if_neg (by simp)]
        refine ih (k + 1) s c (by omega) (by simp only [List.length_cons] at hsl; omega) hc ?_
        intro j hj
        refine ⟨fun he => (h (j + 1) (by simp only [List.length_cons]; omega)).1 (by omega),
          fun hne => (h (j + 1) (by simp only [List.length_cons]; omega)).2 (by omega)⟩

theorem initEntries_single (freq : List Nat) (s c : Nat)
    (hs : s < freq.length) (hc : 0 < c) (hgs : freq.getD s 0 = c)
    (hz : ∀ i, i < freq.length → i ≠ s → freq.getD i 0 = 0) :
    initEntries freq = [(c, 0, HTree.leaf c s)] := by
  unfold initEntries
  have hf : freq.enum.filter (fun p => decide (0 < p.2)) = [(s, c)] := by
    show (freq.enumFrom 0).filter _ = _
    refine enumFrom_filter_single freq 0 s c (Nat.zero_le _) (by omega) hc ?_
    intro j hj
    refine ⟨fun he => ?_, fun hne => hz j hj (by omega)⟩
    rw [show j = s by omega]
    exact hgs
  rw [hf]
  rfl

theorem build_tree_single (freq : List Nat) (s c : Nat)
    (hs : s < freq.length) (hc : 0 < c) (hgs : freq.getD s 0 = c)
    (hz : ∀ i, i < freq.length → i ≠ s → freq.getD i 0 = 0) :
    build_huffman_tree freq =
      some (HTree.node c (HTree.leaf 0 ((s + 1) % 256)) (HTree.leaf c s)) := by
  have hinit := initEntries_single freq s c hs hc hgs hz
  have hfold : (initEntries freq).foldl (fun h e => heapPush e h) [] =
      [(c, 0, HTree.leaf c s)] := by
    rw [hinit]
    rfl
  rw [build_tree_eq_cons freq _ _ hfold, hinit]
  have hkey : keyLe (0, 1) (c, 0) = true := by
    unfold keyLe
    simp [hc]
  show buildLoop 2 (heapPush (0, 1, HTree.leaf 0 ((s + 1) % 256))
    [(c, 0, HTree.leaf c s)]) 2 = _
  unfold heapPush
  rw [if_pos hkey]
  show some (HTree.node (0 + c) (HTree.leaf 0 ((s + 1) % 256)) (HTree.leaf c s)) = _
  rw [Nat.zero_add]

theorem code_table_single (s c : Nat) :
    build_code_table (HTree.node c (HTree.leaf 0 ((s + 1) % 256)) (HTree.leaf c s)) =
      [((s + 1) % 256, [0]), (s, [1])] := rfl


/-! ## Decomposing the tokenizer on a long letter run -/

theorem takeWhile_replicate_append (p : Nat → Bool) (a : Nat) (s : List Nat)
    (hp : p a = true) (hs : ∀ x, s.head? = some x → p x = false) :
    ∀ n, (List.replicate n a ++ s).takeWhile p = List.replicate n a ∧
      (List.replicate n a ++ s).dropWhile p = s := by
  intro n
  induction n with
  | zero =>
      simp only [List.replicate, List.nil_append]
      cases s with
      | nil => exact ⟨rfl, rfl⟩
      | cons x xs =>
          have hx := hs x rfl
          exact ⟨by rw [List.takeWhile_cons, hx]; rfl,
            by rw [List.dropWhile_cons, hx]; rfl⟩
  | succ n ih =>
      rw [List.replicate_succ, List.cons_append]
      exact ⟨by rw [List.takeWhile_cons, hp]; exact congrArg _ ih.1,
        by rw [List.dropWhile_cons, hp]; exact ih.2⟩

theorem tokenizeWordsFuel_irrel : ∀ (f1 : Nat), ∀ (data : List Nat) (f2 : Nat),
    data.length ≤ f1 → data.length ≤ f2 →
    tokenizeWordsFuel f1 data = tokenizeWordsFuel f2 data := by
  intro f1
  induction f1 with
  | zero =>
      intro data f2 h1 _
      have hd : data = [] := List.length_eq_zero.1 (by omega)
      subst hd
      cases f2 <;> rfl
  | succ g ih =>
      intro data f2 h1 h2
      cases data with
      | nil => cases f2 <;> rfl
      | cons b rest =>
          cases f2 with
          | zero => simp at h2
          | succ g2 =>
              have hdrople : ∀ p : Nat → Bool, (rest.dropWhile p).length ≤ rest.length :=
                fun p => (List.dropWhile_sublist p (l := rest)).length_le
              simp only [List.length_cons] at h1 h2
              simp only [tokenizeWordsFuel]
              by_cases hl : is_ascii_letter b
              · rw [if_pos hl, if_pos hl]
                rw [ih (rest.dropWhile is_ascii_letter) g2
                  (le_trans (hdrople _) (by omega)) (le_trans (hdrople _) (by omega))]
              · rw [if_neg hl, if_neg hl]
                rw [ih (rest.dropWhile (fun x => !is_ascii_letter x)) g2
                  (le_trans (hdrople _) (by omega)) (le_trans (hdrople _) (by omega))]

theorem tokenize_words_replicate_letter (a n : Nat) (ha : is_ascii_letter a = true)
    (hn : 0 < n) (s : List Nat)
    (hs : ∀ x, s.head? = some x → is_ascii_letter x = false) :
    tokenize_words_and_other (List.replicate n a ++ s) =
      List.replicate n a :: tokenize_words_and_other s := by
  obtain ⟨m, rfl⟩ : ∃ m, n = m + 1 := ⟨n - 1, by omega⟩
  have hlen : (List.replicate (m + 1) a ++ s).length = m + 1 + s.length := by
    simp [List.length_append, List.length_replicate]
  unfold tokenize_words_and_other
  rw [hlen]
  rw [show List.replicate (m + 1) a ++ s = a :: (List.replicate m a ++ s) by
    rw [List.replicate_succ, List.cons_append]]
  rw [show m + 1 + s.length = m + s.length + 1 from by omega]
  simp only [tokenizeWordsFuel]
  rw [if_pos ha]
  rw [(takeWhile_replicate_append is_ascii_letter a s ha hs m).1,
    (takeWhile_replicate_append is_ascii_letter a s ha hs m).2]
  rw [show a :: List.replicate m a = List.replicate (m + 1) a from
    (List.replicate_succ a m).symm]
  rw [tokenizeWordsFuel_irrel (m + s.length) s s.length (by omega) (le_refl _)]

/-! ## `buildVocab` with a head no later token repeats -/

theorem vocab_foldl_cons_ne (ts : List (List Nat)) : ∀ (x : List Nat) (init : List (List Nat)),
    (∀ t ∈ ts, t ≠ x) →
    ts.foldl (fun vl tok => if vl.contains tok then vl else vl ++ [tok]) (x :: init) =
      x :: ts.foldl (fun vl tok => if vl.contains tok then vl else vl ++ [tok]) init := by
  induction ts with
  | nil => intro x init _; rfl
  | cons t rest ih =>
      intro x init hne
      have htx : t ≠ x := hne t (by simp)
      simp only [List.foldl_cons]
      have hcontains : (x :: init).contains t = init.contains t := by
        simp only [List.contains_cons]
        rw [show (t == x) = false from beq_eq_false_iff_ne.2 htx]
        simp
      rw [hcontains]
      by_cases hmem : init.contains t
      · rw [if_pos hmem, if_pos hmem]
        exact ih x init (fun u hu => hne u (by simp [hu]))
      · rw [if_neg hmem, if_neg hmem]
        rw [show x :: init ++ [t] = x :: (init ++ [t]) from rfl]
        exact ih x (init ++ [t]) (fun u hu => hne u (by simp [hu]))

theorem buildVocab_cons_ne (ts : List (List Nat)) (x : List Nat)
    (hne : ∀ t ∈ ts, t ≠ x) :
    buildVocab (x :: ts) = x :: buildVocab ts :=
  vocab_foldl_cons_ne ts x [] hne


/-! ## A 256-token input rejected by the vocabulary serializer -/

/-- A non-letter byte for each `j < 128` (distinct values, all outside
`A`-`Z`/`a`-`z`). -/
def nlb (j : Nat) : Nat :=
  if j < 65 then j else if j < 71 then j + 26 else j + 52

/-- 127 groups of non-letter byte + two-letter pair, then one more non-letter
byte: 255 distinct short format-4 tokens, starting with a non-letter. -/
def ce3suffix : List Nat :=
  ((List.range 127).map (fun j => [nlb j, 97 + j / 26, 97 + j % 26])).flatten ++ [nlb 127]

/-- A 65536-byte letter run followed by `ce3suffix`: its format-4 tokenization
has exactly 256 distinct tokens, one of which is 65536 bytes long. -/
def ce3data : List Nat := List.replicate 65536 97 ++ ce3suffix

theorem ce3_tokens_eq : tokenize_words_and_other ce3data =
    List.replicate 65536 97 :: tokenize_words_and_other ce3suffix := by
  refine tokenize_words_replicate_letter 97 65536 rfl (by omega) ce3suffix ?_
  intro x hx
  rw [show ce3suffix.head? = some 0 from by decide] at hx
  cases hx
  rfl

theorem ce3_suffix_short : ∀ t ∈ tokenize_words_and_other ce3suffix, t.length ≤ 2 := by
  decide

theorem ce3_suffix_ne_long : ∀ t ∈ tokenize_words_and_other ce3suffix,
    t ≠ List.replicate 65536 97 := by
  intro t ht heq
  have hle := ce3_suffix_short t ht
  rw [heq, List.length_replicate] at hle
  omega

theorem ce3_suffix_vocab_len : (buildVocab (tokenize_words_and_other ce3suffix)).length = 255 := by
  decide

theorem ce3_suffix_count : (tokenize_words_and_other ce3suffix).length = 255 := by
  decide

theorem ce3_vocab_eq : buildVocab (tokenize_words_and_other ce3data) =
    List.replicate 65536 97 :: buildVocab (tokenize_words_and_other ce3suffix) := by
  rw [ce3_tokens_eq]
  exact buildVocab_cons_ne _ _ ce3_suffix_ne_long

theorem ce3_vocab_len : (buildVocab (tokenize_words_and_other ce3data)).length = 256 := by
  rw [ce3_vocab_eq, List.length_cons, ce3_suffix_vocab_len]

theorem ce3_compress_error :
    compress_bytes_v4 ce3data = .error "Token troppo lungo per LEN(2 byte)" := by
  rw [compress_v4_eq]
  rw [if_neg (by rw [ce3_vocab_len]; omega)]
  obtain ⟨freq, lastbits, bitstream, hcore, _⟩ :=
    core_compress_isOk ((tokenize_words_and_other ce3data).map
      (idOf (buildVocab (tokenize_words_and_other ce3data))))
      (ids_lt_256 _ (by rw [ce3_vocab_len]))
  rw [hcore, except_bind_ok]
  rw [to_bytes_ok 8 _ (by
    rw [ce3_tokens_eq, List.length_cons, ce3_suffix_count]
    norm_num), except_bind_ok]
  rw [to_bytes_ok 2 _ (by rw [ce3_vocab_len]; norm_num), except_bind_ok]
  have hser : serialize_vocab (buildVocab (tokenize_words_and_other ce3data)) =
      .error "Token troppo lungo per LEN(2 byte)" := by
    rw [ce3_vocab_eq]
    simp only [serialize_vocab]
    rw [if_pos (by rw [List.length_replicate]; norm_num)]
  rw [hser, except_bind_error]


/-! ## A hand-built format-3 container with an out-of-range id -/

/-- A syntactically valid format-3 container that no compressor produced: one
vocabulary entry (`"A"`), a frequency table whose only non-zero count is for
id 1, and a bitstream decoding to the single id 1 — one past the end of the
vocabulary. -/
def badContainerV3 : List Nat :=
  MAGIC ++ [VERSION_STEP3] ++ [0, 0, 0, 0, 0, 0, 0, 1] ++ [0, 1] ++ [0, 1, 65] ++
    (List.replicate 4 0 ++ [0, 0, 0, 1] ++ List.replicate 1016 0) ++ [1] ++ [128]

set_option maxHeartbeats 2000000 in
theorem badContainerV3_indexError :
    decompress_bytes_v3 badContainerV3 = .error "IndexError" := by rfl


/-! ## Claims -/

/-- A frequency table with exactly two unit counts, for symbols 65 and 66. -/
def freqAB : List Nat := ((List.replicate 256 0).set 65 1).set 66 1

/-- A format-1 container declaring N = 2 symbols (65 and 66, one count each)
whose bitstream is empty: a truncated stream. -/
def badV1Truncated : List Nat :=
  MAGIC ++ [VERSION_STEP1] ++ [0, 0, 0, 0, 0, 0, 0, 2] ++
    (List.replicate 260 0 ++ [0, 0, 0, 1] ++ [0, 0, 0, 1] ++ List.replicate 756 0) ++
    [8]

/-- 128 groups of non-letter byte + two-letter pair: exactly 256 distinct
format-4 tokens, every token at most 2 bytes long. -/
def amended256 : List Nat :=
  ((List.range 128).map (fun j => [nlb j, 97 + j / 26, 97 + j % 26])).flatten

/-- C1: round-trip identity.  Format 1 compression always succeeds on a byte
sequence addressable by the 32-bit frequency counters and decompression
restores the input exactly; for formats 2, 3 and 4 every successful
compression decompresses back to the input (formats 3/4 may legitimately
refuse an input, per the vocabulary bound of C3). -/
theorem claim_C1 (data : List Nat) (hbytes : ∀ b ∈ data, b < 256)
    (hlen : data.length < 2 ^ 32) :
    (∃ c, compress_bytes_v1 data = .ok c ∧ decompress_bytes_v1 c = .ok data) ∧
    (∀ c, compress_bytes_v2 data = .ok c → decompress_bytes_v2 c = .ok data) ∧
    (∀ c, compress_bytes_v3 data = .ok c → decompress_bytes_v3 c = .ok data) ∧
    (∀ c, compress_bytes_v4 data = .ok c → decompress_bytes_v4 c = .ok data) :=
  ⟨roundtrip_v1 data hbytes hlen,
    fun c h => roundtrip_v2 data hbytes c h,
    fun c h => roundtrip_v3 data c h,
    fun c h => roundtrip_v4 data c h⟩

theorem claim_C1_witness :
    (∃ c, compress_bytes_v1 [104, 105] = .ok c ∧ decompress_bytes_v1 c = .ok [104, 105]) ∧
    (∀ c, compress_bytes_v2 [104, 105] = .ok c → decompress_bytes_v2 c = .ok [104, 105]) ∧
    (∀ c, compress_bytes_v3 [104, 105] = .ok c → decompress_bytes_v3 c = .ok [104, 105]) ∧
    (∀ c, compress_bytes_v4 [104, 105] = .ok c → decompress_bytes_v4 c = .ok [104, 105]) :=
  claim_C1 [104, 105] (by decide) (by decide)

/-- C2: the claim asks that a bitstream exhausted before the declared N
symbols are produced raise a distinguishable truncation error.  The code does
not: `decode_bitstream` just runs out of bits and returns the short output as
a success.  With a two-symbol tree, an empty bitstream and N = 2 it returns
`.ok []`, and a format-1 container declaring N = 2 over an empty bitstream
decompresses to `.ok []` — no error in either case. -/
theorem claim_C2 :
    decode_bitstream (build_huffman_tree freqAB) [] 2 8 = .ok [] ∧
    decompress_bytes_v1 badV1Truncated = .ok [] :=
  ⟨rfl, rfl⟩

/-- C3: the vocabulary bound, amended.  For each of formats 3 and 4, more
than 256 distinct tokens is always rejected with that format's
vocabulary-overflow error, unconditionally (the vocabulary check precedes the
LEN check in the source).  The success half holds per format under the two
provisos the original claim omits: every token of that format's tokenization
fits the 2-byte LEN field (at most 65535 bytes) and the input is addressable
by the 32-bit frequency counters (the original unconditional success half is
refuted by `claim_C3_counterexample`). -/
theorem claim_C3 (data : List Nat) :
    (256 < (buildVocab (tokenize_syllables_and_other data)).length →
      compress_bytes_v3 data = .error "VOCAB troppo grande per v3") ∧
    ((buildVocab (tokenize_syllables_and_other data)).length = 256 →
      (∀ t ∈ tokenize_syllables_and_other data, t.length ≤ 0xFFFF) →
      data.length < 2 ^ 32 →
      ∃ c, compress_bytes_v3 data = .ok c) ∧
    (256 < (buildVocab (tokenize_words_and_other data)).length →
      compress_bytes_v4 data = .error "VOCAB troppo grande per v4") ∧
    ((buildVocab (tokenize_words_and_other data)).length = 256 →
      (∀ t ∈ tokenize_words_and_other data, t.length ≤ 0xFFFF) →
      data.length < 2 ^ 32 →
      ∃ c, compress_bytes_v4 data = .ok c) := by
  refine ⟨fun hov => ?_, fun heq htok hlen => ?_, fun hov => ?_, fun heq htok hlen => ?_⟩
  · rw [compress_v3_eq, if_pos hov]
  · exact compress_v3_isOk data (by omega) htok
      (lt_of_le_of_lt (tokenize_syllables_count_le data) hlen)
  · rw [compress_v4_eq, if_pos hov]
  · exact compress_v4_isOk data (by omega) htok
      (lt_of_le_of_lt (tokenize_words_count_le data) hlen)

theorem claim_C3_witness :
    (buildVocab (tokenize_words_and_other amended256)).length = 256 ∧
    (∃ c, compress_bytes_v4 amended256 = .ok c) :=
  ⟨by decide, (claim_C3 amended256).2.2.2 (by decide) (by decide) (by decide)⟩

/-- C3 counterexample to the original success half: `ce3data` tokenizes under
format 4 into exactly 256 distinct tokens, yet `compress_bytes_v4` fails,
because its first token is 65536 bytes long and overflows the 2-byte LEN
field of the vocabulary serialization. -/
theorem claim_C3_counterexample :
    (buildVocab (tokenize_words_and_other ce3data)).length = 256 ∧
    compress_bytes_v4 ce3data = .error "Token troppo lungo per LEN(2 byte)" :=
  ⟨ce3_vocab_len, ce3_compress_error⟩

/-- C4: every code table built over a tree of `build_huffman_tree` (which
exists whenever some entry of the table is non-zero) is prefix-free: codes of
distinct symbols are never prefixes of one another. -/
theorem claim_C4 (freq : List Nat) (s : Nat) (hs : s < freq.length)
    (hpos : 0 < freq.getD s 0) :
    ∃ root, build_huffman_tree freq = some root ∧
      ∀ e1 ∈ build_code_table root, ∀ e2 ∈ build_code_table root,
        e1.1 ≠ e2.1 → ¬ e1.2 <+: e2.2 := by
  obtain ⟨root, hroot⟩ := build_tree_isSome freq s hs hpos
  exact ⟨root, hroot, fun e1 h1 e2 h2 hne => buildCodeDfs_prefix_free root [] e1 h1 e2 h2 hne⟩

theorem claim_C4_witness :
    ∃ root, build_huffman_tree freqAB = some root ∧
      ∀ e1 ∈ build_code_table root, ∀ e2 ∈ build_code_table root,
        e1.1 ≠ e2.1 → ¬ e1.2 <+: e2.2 :=
  claim_C4 freqAB 65 (by decide) (by decide)

/-- C5: on a table whose only non-zero count belongs to symbol `s`,
`build_huffman_tree` synthesizes the zero-weight dummy leaf with symbol
`(s + 1) % 256` and pairs it with the real leaf, the resulting tree has two
leaves, and every non-zero symbol (that is, `s`) receives the non-empty code
`[1]` from `build_code_table`. -/
theorem claim_C5 (freq : List Nat) (s : Nat) (hs : s < freq.length)
    (hpos : 0 < freq.getD s 0)
    (hz : ∀ i, i < freq.length → i ≠ s → freq.getD i 0 = 0) :
    build_huffman_tree freq =
      some (HTree.node (freq.getD s 0) (HTree.leaf 0 ((s + 1) % 256))
        (HTree.leaf (freq.getD s 0) s)) ∧
    (HTree.node (freq.getD s 0) (HTree.leaf 0 ((s + 1) % 256))
        (HTree.leaf (freq.getD s 0) s)).leafSyms.length = 2 ∧
    build_code_table (HTree.node (freq.getD s 0) (HTree.leaf 0 ((s + 1) % 256))
        (HTree.leaf (freq.getD s 0) s)) = [((s + 1) % 256, [0]), (s, [1])] ∧
    (∀ b, b < freq.length → 0 < freq.getD b 0 →
      ∃ code, codesFor (build_code_table (HTree.node (freq.getD s 0)
        (HTree.leaf 0 ((s + 1) % 256)) (HTree.leaf (freq.getD s 0) s))) b = .ok code ∧
        code ≠ []) := by
  have hne : (s + 1) % 256 ≠ s := by omega
  refine ⟨build_tree_single freq s (freq.getD s 0) hs hpos rfl hz, rfl,
    code_table_single s (freq.getD s 0), ?_⟩
  intro b hb hbpos
  have hbs : b = s := by
    by_contra hnebs
    rw [hz b hb hnebs] at hbpos
    omega
  subst hbs
  refine ⟨[1], ?_, by simp⟩
  rw [code_table_single b (freq.getD b 0)]
  unfold codesFor
  rw [List.find?_cons_of_neg _ (by simpa using hne),
    List.find?_cons_of_pos _ (by simp)]

theorem claim_C5_witness :
    build_huffman_tree ((List.replicate 256 0).set 65 3) =
      some (HTree.node (((List.replicate 256 0).set 65 3).getD 65 0)
        (HTree.leaf 0 ((65 + 1) % 256))
        (HTree.leaf (((List.replicate 256 0).set 65 3).getD 65 0) 65)) ∧
    (HTree.node (((List.replicate 256 0).set 65 3).getD 65 0)
        (HTree.leaf 0 ((65 + 1) % 256))
        (HTree.leaf (((List.replicate 256 0).set 65 3).getD 65 0) 65)).leafSyms.length = 2 ∧
    build_code_table (HTree.node (((List.replicate 256 0).set 65 3).getD 65 0)
        (HTree.leaf 0 ((65 + 1) % 256))
        (HTree.leaf (((List.replicate 256 0).set 65 3).getD 65 0) 65)) =
      [((65 + 1) % 256, [0]), (65, [1])] ∧
    (∀ b, b < ((List.replicate 256 0).set 65 3).length →
      0 < ((List.replicate 256 0).set 65 3).getD b 0 →
      ∃ code, codesFor (build_code_table (HTree.node
        (((List.replicate 256 0).set 65 3).getD 65 0)
        (HTree.leaf 0 ((65 + 1) % 256))
        (HTree.leaf (((List.replicate 256 0).set 65 3).getD 65 0) 65))) b = .ok code ∧
        code ≠ []) :=
  claim_C5 ((List.replicate 256 0).set 65 3) 65 (by decide) (by decide) (by decide)

/-- C6: the format-2 splitter preserves lengths: the mask stream is as long as
the input, and the vowel and cons/other streams partition it. -/
theorem claim_C6 (data : List Nat) :
    (split_streams_v2 data).1.length = data.length ∧
    (split_streams_v2 data).2.1.length + (split_streams_v2 data).2.2.length = data.length :=
  split_streams_v2_lengths data

/-- C7: `encode_data` returns `lastbits = 0` exactly for empty input; on
non-empty input `lastbits` is between 1 and 8: 8 when the total code-bit
count is a multiple of 8 (including the vacuous zero-bit case), the remainder
mod 8 otherwise, and the final emitted byte is zero-padded on the right —
its `8 - lastbits` low bits are zero. -/
theorem claim_C7 (data : List Nat) (codes : List (Nat × List Nat)) (bs : List Nat) (lb : Nat)
    (henc : encode_data data codes = .ok (bs, lb)) :
    (lb = 0 ↔ data = []) ∧
    (∀ bits, encode_bits data codes = .ok bits → data ≠ [] →
      (1 ≤ lb ∧ lb ≤ 8) ∧
      (bits.length % 8 = 0 → lb = 8) ∧
      (bits.length % 8 ≠ 0 → lb = bits.length % 8) ∧
      (∀ v, bs.getLast? = some v → v % 2 ^ (8 - lb) = 0)) := by
  by_cases hd : data = []
  · subst hd
    have h0 : encode_data [] codes = .ok ([], 0) := rfl
    rw [h0] at henc
    injection henc with h1
    injection h1 with hbs hlb
    subst hbs
    subst hlb
    exact ⟨by simp, fun bits _ hne => absurd rfl hne⟩
  · have hmap : encode_data data codes = (encode_bits data codes).map packBits := by
      unfold encode_data
      rw [if_neg (by simpa [List.isEmpty_iff] using hd)]
    rw [hmap] at henc
    cases hx : encode_bits data codes with
    | error e =>
        rw [hx] at henc
        exact absurd henc (by simp [Except.map])
    | ok bits0 =>
        rw [hx] at henc
        have hpair : packBits bits0 = (bs, lb) := by
          have h2 : (Except.ok (packBits bits0) : Except String (List Nat × Nat)) =
              .ok (bs, lb) := henc
          injection h2
        have hsnd : (packBits bits0).2 =
            if bits0.length % 8 = 0 then 8 else bits0.length % 8 := by
          unfold packBits
          simpa using packGo_snd bits0 0 0 (by omega)
        have hpad : ∀ v, (packBits bits0).1.getLast? = some v →
            v % 2 ^ (8 - (packBits bits0).2) = 0 := by
          unfold packBits
          exact packGo_last_padding bits0 0 0 (by omega)
        have hlb : lb = if bits0.length % 8 = 0 then 8 else bits0.length % 8 := by
          rw [← hsnd, hpair]
        have hbs : bs = (packBits bits0).1 := by rw [hpair]
        constructor
        · constructor
          · intro hl0
            rw [hl0] at hlb
            split at hlb <;> omega
          · intro h
            exact absurd h hd
        · intro bits hbits hne
          injection hbits with hb
          subst hb
          refine ⟨⟨?_, ?_⟩, fun h8 => by rw [hlb, if_pos h8],
            fun h8 => by rw [hlb, if_neg h8], ?_⟩
          · rw [hlb]; split <;> omega
          · rw [hlb]; split <;> omega
          · intro v hv
            rw [hbs] at hv
            have := hpad v hv
            rw [hpair] at this
            exact this

theorem claim_C7_witness :
    ((2 : Nat) = 0 ↔ ([65, 66] : List Nat) = []) ∧
    (∀ bits, encode_bits [65, 66] [(65, [0]), (66, [1])] = .ok bits →
      ([65, 66] : List Nat) ≠ [] →
      (1 ≤ 2 ∧ 2 ≤ 8) ∧
      (bits.length % 8 = 0 → 2 = 8) ∧
      (bits.length % 8 ≠ 0 → 2 = bits.length % 8) ∧
      (∀ v, ([64] : List Nat).getLast? = some v → v % 2 ^ (8 - 2) = 0)) :=
  claim_C7 [65, 66] [(65, [0]), (66, [1])] [64] 2 rfl

/-- C8: on the bytes of `"ciao, mondo!"` the format-4 tokenizer produces
exactly `["ciao", ", ", "mondo", "!"]`, the syllable splitter cuts `"ciao"`
into `["ci", "a", "o"]` (closing after every vowel), and the format-3
tokenizer keeps the non-letter tokens `", "` and `"!"` unsplit. -/
theorem claim_C8 :
    tokenize_words_and_other [99, 105, 97, 111, 44, 32, 109, 111, 110, 100, 111, 33] =
      [[99, 105, 97, 111], [44, 32], [109, 111, 110, 100, 111], [33]] ∧
    split_word_into_syllables [99, 105, 97, 111] = [[99, 105], [97], [111]] ∧
    tokenize_syllables_and_other [99, 105, 97, 111, 44, 32, 109, 111, 110, 100, 111, 33] =
      [[99, 105], [97], [111], [44, 32], [109, 111], [110, 100, 111], [33]] := by
  refine ⟨rfl, rfl, rfl⟩

/-- C9: both tokenizers are exact partitions of the input: concatenating the
tokens in order restores the byte sequence, so no byte is dropped, duplicated
or reordered. -/
theorem claim_C9 (data : List Nat) :
    (tokenize_words_and_other data).flatten = data ∧
    (tokenize_syllables_and_other data).flatten = data :=
  ⟨tokenize_words_join data, tokenize_syllables_join data⟩

/-- C10: on every container produced by `compress_bytes_v3`/`v4`,
decompression succeeds, so in particular every decoded id is within the
vocabulary (the reconstruction loop errors on the first out-of-range id); and
the bound is indeed never validated against arbitrary containers: the
hand-built `badContainerV3` drives the unguarded `vocab_list[b]` lookup out
of range, surfacing as a raw `IndexError` rather than a checked format
error. -/
theorem claim_C10 :
    (∀ data c, compress_bytes_v3 data = .ok c → ∃ out, decompress_bytes_v3 c = .ok out) ∧
    (∀ data c, compress_bytes_v4 data = .ok c → ∃ out, decompress_bytes_v4 c = .ok out) ∧
    decompress_bytes_v3 badContainerV3 = .error "IndexError" :=
  ⟨fun data c h => ⟨data, roundtrip_v3 data c h⟩,
    fun data c h => ⟨data, roundtrip_v4 data c h⟩,
    badContainerV3_indexError⟩

end GCC
